import Mathlib

/-!
# invoice-cli: the PDF layout pass (`pdf.go`)

A shallow embedding of `pdf.go`.  Go `float64` values are modelled exactly
(IEEE-754 binary64, round to nearest, ties to even); Go strings are lists of
characters; the calls made on the `*gopdf.GoPdf` canvas are recorded, in order,
as a list of `PdfCall`s.  The routines `pdf.go` calls in the Go standard library
(`strings`, `strconv`, `fmt`) and in go-humanize are embedded next to it; what it
reads from the rest of the package and from the file system is the `Env`.
-/

namespace Invoice

/-! ## Go `float64` -/

/-- Go `float64`: NaN, a signed infinity, or the finite value
`(-1)^neg * m * 2^e`.  Every operation below returns the finite values in the
canonical form `m < 2^53`, `-1074 ≤ e ≤ 971`, and `2^52 ≤ m` unless `e = -1074`;
zero is `fin neg 0 0`.  The `float64` values are the canonical ones; a statement
about every `Float64` covers them all. -/
inductive Float64 where
  | nan : Float64
  | inf (neg : Bool) : Float64
  | fin (neg : Bool) (m : Nat) (e : Int) : Float64
deriving DecidableEq, Repr

namespace Float64

/-- Digit-by-digit `⌊log₂ n⌋` with a recursion budget (`0` for `n < 2`). -/
def log2Aux : Nat → Nat → Nat
  | 0, _ => 0
  | fuel + 1, n => if n < 2 then 0 else log2Aux fuel (n / 2) + 1

/-- Base-two logarithm `⌊log₂ n⌋` of a natural number (`0` for `n = 0`). -/
def log2 (n : Nat) : Nat := log2Aux n n

/-- Exponent of the leading binary digit of the positive rational `p / q`,
that is `⌊log₂ (p / q)⌋`. -/
def msbExp (p q : Nat) : Int :=
  let g : Int := (log2 p : Int) - (log2 q : Int)
  if q * 2 ^ g.toNat ≤ p * 2 ^ (-g).toNat then g else g - 1

/-- The integer nearest to `p / q`, ties to the even one. -/
def roundHalfEven (p q : Nat) : Nat :=
  let k := p / q
  let r := p % q
  if q < 2 * r ∨ (2 * r = q ∧ k % 2 = 1) then k + 1 else k

/-- Round the exact non-negative rational `p / q` (with sign bit `neg`) to the
nearest binary64 value, ties to even; overflow gives an infinity. -/
def round (neg : Bool) (p q : Nat) : Float64 :=
  if p = 0 then fin neg 0 0 else
  let t : Int := max (msbExp p q - 52) (-1074)
  let k := roundHalfEven (p * 2 ^ (-t).toNat) (q * 2 ^ t.toNat)
  if k = 0 then fin neg 0 0
  else if k = 2 ^ 53 then (if 971 < t + 1 then inf neg else fin neg (2 ^ 52) (t + 1))
  else if 971 < t then inf neg else fin neg k t

/-- Numerator of the magnitude of a finite value, over `den`. -/
def num (m : Nat) (e : Int) : Nat := m * 2 ^ e.toNat

/-- Denominator of the magnitude of a finite value. -/
def den (e : Int) : Nat := 2 ^ (-e).toNat

/-- The signed numerator of a finite value, over `den e`. -/
def snum (neg : Bool) (m : Nat) (e : Int) : Int :=
  if neg then -(num m e : Int) else (num m e : Int)

/-- Go conversion `float64(i)` of an integer. -/
def ofInt (i : Int) : Float64 := round (decide (i < 0)) i.natAbs 1

/-- The `float64` nearest to the decimal constant `n / 10^k`, as the Go compiler
converts a decimal literal. -/
def ofDecimal (n : Int) (k : Nat) : Float64 := round (decide (n < 0)) n.natAbs (10 ^ k)

/-- Go unary minus. -/
def neg : Float64 → Float64
  | nan => nan
  | inf s => inf (!s)
  | fin s m e => fin (!s) m e

/-- Go `a + b`. -/
def add : Float64 → Float64 → Float64
  | nan, _ => nan
  | _, nan => nan
  | inf s, inf s2 => if s = s2 then inf s else nan
  | inf s, fin _ _ _ => inf s
  | fin _ _ _, inf s => inf s
  | fin s1 m1 e1, fin s2 m2 e2 =>
    let n : Int := snum s1 m1 e1 * (den e2 : Int) + snum s2 m2 e2 * (den e1 : Int)
    if n = 0 then fin (s1 && s2) 0 0
    else round (decide (n < 0)) n.natAbs (den e1 * den e2)

/-- Go `a - b`. -/
def sub (a b : Float64) : Float64 := add a (neg b)

/-- Go `a * b`. -/
def mul : Float64 → Float64 → Float64
  | nan, _ => nan
  | _, nan => nan
  | inf s, inf s2 => inf (xor s s2)
  | inf s, fin s2 m _ => if m = 0 then nan else inf (xor s s2)
  | fin s m _, inf s2 => if m = 0 then nan else inf (xor s s2)
  | fin s1 m1 e1, fin s2 m2 e2 =>
    round (xor s1 s2) (num m1 e1 * num m2 e2) (den e1 * den e2)

/-- Go `a / b`. -/
def div : Float64 → Float64 → Float64
  | nan, _ => nan
  | _, nan => nan
  | inf _, inf _ => nan
  | inf s, fin s2 _ _ => inf (xor s s2)
  | fin s _ _, inf s2 => fin (xor s s2) 0 0
  | fin s1 m1 e1, fin s2 m2 e2 =>
    if m2 = 0 then (if m1 = 0 then nan else inf (xor s1 s2))
    else round (xor s1 s2) (num m1 e1 * den e2) (den e1 * num m2 e2)

/-- Go `a < b` (false whenever an operand is NaN). -/
def lt : Float64 → Float64 → Bool
  | nan, _ => false
  | _, nan => false
  | inf s, inf s2 => s && !s2
  | inf s, fin _ _ _ => s
  | fin _ _ _, inf s => !s
  | fin s1 m1 e1, fin s2 m2 e2 =>
    decide (snum s1 m1 e1 * (den e2 : Int) < snum s2 m2 e2 * (den e1 : Int))

/-- Go `a > b`. -/
def gt (a b : Float64) : Bool := lt b a

/-- Go `a == b` (false whenever an operand is NaN; `+0 == -0`). -/
def eq : Float64 → Float64 → Bool
  | nan, _ => false
  | _, nan => false
  | inf s, inf s2 => s == s2
  | inf _, fin _ _ _ => false
  | fin _ _ _, inf _ => false
  | fin s1 m1 e1, fin s2 m2 e2 =>
    decide (snum s1 m1 e1 * (den e2 : Int) = snum s2 m2 e2 * (den e1 : Int))

end Float64

/-! ## Go strings and the library routines `pdf.go` calls -/

/-- A Go string.  Every routine below looks only for ASCII characters, so
working on characters agrees with Go working on the bytes of the UTF-8 text. -/
abbrev GoString := List Char

/-- Go `strings.Split(s, sep)` for a one-character separator `sep`. -/
def stringsSplit : GoString → Char → List GoString
  | [], _ => [[]]
  | c :: cs, sep =>
    if c = sep then [] :: stringsSplit cs sep
    else match stringsSplit cs sep with
      | [] => [[c]]
      | l :: ls => (c :: l) :: ls

/-- Go `strings.Join(parts, sep)` for a one-character separator. -/
def stringsJoin : List GoString → Char → GoString
  | [], _ => []
  | [l], _ => l
  | l :: l2 :: ls, sep => l ++ sep :: stringsJoin (l2 :: ls) sep

/-- The scan of Go `strings.ReplaceAll`: `skip` counts the characters of a
match that are still to be dropped. -/
def replaceAllAux (old new : GoString) : Nat → GoString → GoString
  | _, [] => []
  | skip + 1, _ :: cs => replaceAllAux old new skip cs
  | 0, c :: cs =>
    if old.isPrefixOf (c :: cs) then new ++ replaceAllAux old new (old.length - 1) cs
    else c :: replaceAllAux old new 0 cs

/-- Go `strings.ReplaceAll(s, old, new)` for a non-empty `old`: the
non-overlapping occurrences of `old`, found from the left, become `new`. -/
def stringsReplaceAll (s old new : GoString) : GoString := replaceAllAux old new 0 s

/-- Go `strings.Index(s, sep)` for a one-character `sep` (`none` for `-1`). -/
def stringsIndex : GoString → Char → Option Nat
  | [], _ => none
  | c :: cs, sep => if c = sep then some 0 else (stringsIndex cs sep).map (· + 1)

/-- The decimal digit `d < 10` as a character. -/
def digitChar (d : Nat) : Char := Char.ofNat (48 + d)

/-- Decimal digits of `n`, most significant first, in front of `acc`. -/
def natDigitsAux : Nat → Nat → GoString → GoString
  | 0, _, acc => acc
  | fuel + 1, n, acc =>
    if n < 10 then digitChar n :: acc
    else natDigitsAux fuel (n / 10) (digitChar (n % 10) :: acc)

/-- Decimal digits of `n` (`"0"` for zero). -/
def natDigits (n : Nat) : GoString := natDigitsAux (n + 1) n []

/-- The digits of `n` with a decimal point before the last `prec` of them
(zero-padded so that at least one digit precedes the point); no point when
`prec = 0`. -/
def fixedDigits (n prec : Nat) : GoString :=
  let ds := natDigits n
  let ds := List.replicate (prec + 1 - ds.length) '0' ++ ds
  if prec = 0 then ds
  else ds.take (ds.length - prec) ++ '.' :: ds.drop (ds.length - prec)

/-- Go `strconv.FormatFloat(x, 'f', prec, 64)` for `prec ≥ 0`, which is also
`fmt.Sprintf("%.<prec>f", x)`: the exact value rounded to `prec` decimals,
ties to even. -/
def formatFixed (prec : Nat) : Float64 → GoString
  | .nan => "NaN".toList
  | .inf false => "+Inf".toList
  | .inf true => "-Inf".toList
  | .fin s m e =>
    (if s then ['-'] else []) ++
      fixedDigits (Float64.roundHalfEven (Float64.num m e * 10 ^ prec) (Float64.den e)) prec

/-- `fmt.Sprintf("%.0f", n)`. -/
def sprintf0f (n : Float64) : GoString := formatFixed 0 n

/-- `fmt.Sprintf("%.1f", n)`. -/
def sprintf1f (n : Float64) : GoString := formatFixed 1 n

/-- The search of `strconv.FormatFloat(x, 'f', -1, 64)` for the shortest decimal
that reads back as `x`.  The value is `vn / d`, the numbers that round to it lie
between `lo / d` and `hi / d` (the ends included when `incl`), and the
candidates are the two multiples of `10^j` around the value; `j` goes down from
a power of ten above the value until one of them fits.  The result is the
multiple `c` and the exponent `j`: the decimal `c * 10^j`. -/
def shortestAux (vn lo hi d : Nat) (incl : Bool) : Nat → Int → Nat × Int
  | 0, j => (0, j)
  | fuel + 1, j =>
    let un := 10 ^ j.toNat
    let ud := 10 ^ (-j).toNat
    let a := (vn * ud) / (d * un)
    let okDown := if incl then lo * ud ≤ a * un * d else lo * ud < a * un * d
    let okUp := if incl then (a + 1) * un * d ≤ hi * ud else (a + 1) * un * d < hi * ud
    let upCloser := (2 * a + 1) * un * d < 2 * vn * ud ∨
      ((2 * a + 1) * un * d = 2 * vn * ud ∧ a % 2 = 1)
    if okDown ∧ okUp then (if upCloser then (a + 1, j) else (a, j))
    else if okDown then (a, j)
    else if okUp then (a + 1, j)
    else shortestAux vn lo hi d incl fuel (j - 1)

/-- The shortest decimal `c * 10^j` that reads back as the finite non-zero value
`m * 2^e`: the numbers that round to it lie between the midpoints to its two
neighbours, the ends included when `m` is even. -/
def shortestDecimal (m : Nat) (e : Int) : Nat × Int :=
  let sc := 2 ^ (e - 2).toNat
  let d := 2 ^ (-(e - 2)).toNat
  let lo := if m = 2 ^ 52 ∧ -1074 < e then (4 * m - 1) * sc else (4 * m - 2) * sc
  let top : Nat := (natDigits ((4 * m + 2) * sc / d)).length
  shortestAux (4 * m * sc) lo ((4 * m + 2) * sc) d (m % 2 = 0) (top + (-e).toNat + 1) top

/-- The decimal `c * 10^j` written without an exponent. -/
def decimalText (c : Nat) (j : Int) : GoString :=
  if 0 ≤ j then natDigits c ++ List.replicate j.toNat '0'
  else fixedDigits c (-j).toNat

/-- Go `strconv.FormatFloat(x, 'f', -1, 64)`: the shortest decimal that reads
back as `x`, written without an exponent. -/
def formatShortest : Float64 → GoString
  | .nan => "NaN".toList
  | .inf false => "+Inf".toList
  | .inf true => "-Inf".toList
  | .fin s m e =>
    (if s then ['-'] else []) ++
      (if m = 0 then ['0']
       else decimalText (shortestDecimal m e).1 (shortestDecimal m e).2)

/-- The `for` loop of go-humanize `Commaf`: every three characters, followed by
a comma.  The loop starts at `len % 3`, so the characters left always come in
threes and the last case is never reached. -/
def commaGroups : GoString → GoString
  | [] => []
  | a :: b :: c :: rest => a :: b :: c :: ',' :: commaGroups rest
  | rest => rest ++ [',']

/-- The `humanize.Commaf(v)` routine of go-humanize: the shortest decimal of
`v` with commas after every three orders of magnitude. -/
def humanizeCommaf (v : Float64) : GoString :=
  let sign : GoString := if Float64.lt v (Float64.ofInt 0) then ['-'] else []
  let v := if Float64.lt v (Float64.ofInt 0) then Float64.sub (Float64.ofInt 0) v else v
  let parts := stringsSplit (formatShortest v) '.'
  let p0 := parts.headD []
  let pos := p0.length % 3
  let buf := sign ++ (if pos ≠ 0 then p0.take pos ++ [','] else []) ++
    commaGroups (p0.drop pos)
  let buf := buf.dropLast
  if 1 < parts.length then buf ++ '.' :: parts.getD 1 [] else buf

/-- The `stripTrailingDigits(s, digits)` routine of go-humanize: at most
`digits` characters are kept after the first decimal point. -/
def stripTrailingDigits (s : GoString) (digits : Int) : GoString :=
  match stringsIndex s '.' with
  | some i =>
    if digits ≤ 0 then s.take i
    else if (s.length : Int) ≤ (i : Int) + 1 + digits then s
    else s.take (i + 1 + digits.toNat)
  | none => s

/-- The `humanize.CommafWithDigits(f, decimals)` routine of go-humanize. -/
def humanizeCommafWithDigits (f : Float64) (decimals : Int) : GoString :=
  stripTrailingDigits (humanizeCommaf f) decimals

/-! ## The canvas -/

/-- The two font families `pdf.go` names; the constants `fontName` and
`fontNameBold` are declared elsewhere in the package. -/
inductive Font where
  | fontName : Font
  | fontNameBold : Font
deriving DecidableEq, Repr

/-- The alignment flags of `gopdf` used by `pdf.go`. -/
inductive Align where
  | Right : Align
  | Middle : Align
deriving DecidableEq, Repr

/-- A coordinate argument of a canvas call: a number, or the cursor read at the
time of the call with `pdf.GetX()` or `pdf.GetY()`. -/
inductive Coord where
  | lit (v : Float64) : Coord
  | GetX : Coord
  | GetY : Coord
deriving DecidableEq, Repr

/-- One call on the `*gopdf.GoPdf` canvas, with its arguments.  `Cell` is
`pdf.Cell(nil, text)`; `CellWithOption` carries the width and height of its
rectangle. -/
inductive PdfCall where
  | SetFont (family : Font) (style : GoString) (size : Float64) : PdfCall
  | SetFontSize (size : Float64) : PdfCall
  | SetTextColor (r g b : Nat) : PdfCall
  | SetStrokeColor (r g b : Nat) : PdfCall
  | SetX (x : Float64) : PdfCall
  | SetY (y : Float64) : PdfCall
  | Br (h : Float64) : PdfCall
  | Cell (text : GoString) : PdfCall
  | CellWithOption (w h : Float64) (text : GoString) (align : List Align) : PdfCall
  | Image (path : GoString) (x y : Coord) (w h : Float64) : PdfCall
  | Line (x1 y1 x2 y2 : Coord) : PdfCall
deriving DecidableEq, Repr

/-- What `pdf.go` reads from outside itself: the package variables
`currencySymbols` and `file.Currency`, the outcome of opening and decoding an
image file (`none` when `os.Open` or `image.DecodeConfig` fails), and the result
the platform gives to an out-of-range `int64` conversion. -/
structure Env where
  currencySymbols : List (GoString × GoString)
  fileCurrency : GoString
  decodeConfig : GoString → Option (Int × Int)
  int64OutOfRange : Float64 → Int

/-- Go map indexing `m[key]` on a `map[string]string`: the zero value `""` when
the key is absent. -/
def mapIndex (m : List (GoString × GoString)) (key : GoString) : GoString :=
  match m.lookup key with
  | some v => v
  | none => []

/-- Go conversion `int64(n)`: the fraction is discarded (truncation towards
zero).  When the truncated value does not fit in an `int64`, or `n` is NaN or an
infinity, Go leaves the result to the implementation. -/
def toInt64 (env : Env) : Float64 → Int
  | .nan => env.int64OutOfRange .nan
  | .inf s => env.int64OutOfRange (.inf s)
  | .fin s m e =>
    let t : Int := (Float64.num m e / Float64.den e : Nat)
    let v : Int := if s then -t else t
    if -(2 ^ 63 : Int) ≤ v ∧ v < 2 ^ 63 then v else env.int64OutOfRange (.fin s m e)

/-! ## `pdf.go` -/

def quantityColumnOffset : Int := 360
def rateColumnOffset : Int := 405
def amountColumnOffset : Int := 480

def subtotalLabel : GoString := "Subtotal".toList
def discountLabel : GoString := "Discount".toList
def taxLabel : GoString := "Tax".toList
def totalLabel : GoString := "Total".toList

/-- An RGB colour of `pdf.go`. -/
structure Color where
  R : Nat
  G : Nat
  B : Nat
deriving DecidableEq, Repr

def text : Color := ⟨25, 25, 25⟩
def border : Color := ⟨225, 225, 225⟩
def heading : Color := ⟨75, 75, 75⟩

/-- `formatFloat` of `pdf.go`. -/
def formatFloat (env : Env) (n : Float64) : GoString :=
  if Float64.eq n (Float64.ofInt (toInt64 env n)) then sprintf0f n
  else sprintf1f n

/-- `getImageDimension` of `pdf.go`: both errors are printed and otherwise
ignored, so a failure returns the fields of the zero `image.Config`. -/
def getImageDimension (env : Env) (imagePath : GoString) : Int × Int :=
  match env.decodeConfig imagePath with
  | some (width, height) => (width, height)
  | none => (0, 0)

/-- The body of the loop of `writeLogo` over the lines of `from`. -/
def writeLogoLines : Nat → List GoString → List PdfCall
  | _, [] => []
  | i, line :: rest =>
    (if 0 < i then [PdfCall.SetFont Font.fontName [] (Float64.ofInt 12)] else []) ++
      PdfCall.Cell line :: PdfCall.Br (Float64.ofInt 16) :: writeLogoLines (i + 1) rest

/-- `writeLogo` of `pdf.go`; `sender` is its parameter `from`. -/
def writeLogo (env : Env) (logo : GoString) (sender : GoString) : List PdfCall :=
  (if logo ≠ [] then
    let dim := getImageDimension env logo
    let scaledWidth := Float64.ofInt 100
    let scaledHeight :=
      Float64.div (Float64.mul (Float64.ofInt dim.2) scaledWidth) (Float64.ofInt dim.1)
    [PdfCall.Image logo Coord.GetX Coord.GetY scaledWidth scaledHeight,
     PdfCall.Br (Float64.add scaledHeight (Float64.ofInt 24))]
  else []) ++
  [PdfCall.SetFont Font.fontNameBold [] (Float64.ofInt 14),
   PdfCall.SetTextColor text.R text.G text.B] ++
  writeLogoLines 0 (stringsSplit sender '\n') ++
  [PdfCall.Br (Float64.ofInt 36),
   PdfCall.SetStrokeColor border.R border.G border.B,
   PdfCall.Line Coord.GetX Coord.GetY (Coord.lit (Float64.ofInt 100)) Coord.GetY,
   PdfCall.Br (Float64.ofInt 36)]

/-- `writeDueDate` of `pdf.go`. -/
def writeDueDate (due : GoString) : List PdfCall :=
  [PdfCall.SetFont Font.fontName [] (Float64.ofInt 10),
   PdfCall.SetTextColor heading.R heading.G heading.B,
   PdfCall.SetX (Float64.ofInt (rateColumnOffset + 5)),
   PdfCall.CellWithOption (Float64.ofInt 45) (Float64.ofInt 12) "Due".toList
     [Align.Right, Align.Middle],
   PdfCall.SetTextColor heading.R heading.G heading.B,
   PdfCall.SetFontSize (Float64.ofInt 10),
   PdfCall.SetX (Float64.ofInt (amountColumnOffset - 15)),
   PdfCall.Cell due,
   PdfCall.Br (Float64.ofInt 12)]

/-- The lines `writeNotes` draws: `notesLines` of `pdf.go`. -/
def notesLines (notes : GoString) : List GoString :=
  let formattedNotes := stringsReplaceAll notes ['\\', 'n'] ['\n']
  stringsSplit formattedNotes '\n'

/-- The loop of `writeNotes` over `notesLines`. -/
def writeNotesLoop : List GoString → List PdfCall
  | [] => []
  | line :: rest => PdfCall.Cell line :: PdfCall.Br (Float64.ofInt 14) :: writeNotesLoop rest

/-- `writeNotes` of `pdf.go`. -/
def writeNotes (notes : GoString) (header : GoString) : List PdfCall :=
  [PdfCall.SetY (Float64.ofInt 650),
   PdfCall.SetFont Font.fontName [] (Float64.ofInt 10),
   PdfCall.SetTextColor heading.R heading.G heading.B,
   PdfCall.Cell header,
   PdfCall.Br (Float64.ofInt 18),
   PdfCall.SetFont Font.fontName [] (Float64.ofInt 10),
   PdfCall.SetTextColor text.R text.G text.B] ++
  writeNotesLoop (notesLines notes) ++
  [PdfCall.Br (Float64.ofInt 48)]

/-- The money text of `writeRow` and `writeTotal`:
`currencySymbols[file.Currency]+humanize.CommafWithDigits(amount, 2)`. -/
def moneyText (env : Env) (amount : Float64) : GoString :=
  mapIndex env.currencySymbols env.fileCurrency ++ humanizeCommafWithDigits amount 2

/-- `writeRow` of `pdf.go`. -/
def writeRow (env : Env) (item : GoString) (quantity : Float64) (rate : Float64) :
    List PdfCall :=
  let total := Float64.mul quantity rate
  [PdfCall.SetFont Font.fontName [] (Float64.ofInt 11),
   PdfCall.SetTextColor text.R text.G text.B,
   PdfCall.Cell item,
   PdfCall.SetX (Float64.ofInt quantityColumnOffset),
   PdfCall.Cell (formatFloat env quantity),
   PdfCall.SetX (Float64.ofInt rateColumnOffset),
   PdfCall.Cell (moneyText env rate),
   PdfCall.SetX (Float64.ofInt amountColumnOffset),
   PdfCall.Cell (moneyText env total),
   PdfCall.Br (Float64.ofInt 24)]

/-- `writeTotal` of `pdf.go`. -/
def writeTotal (env : Env) (label : GoString) (total : Float64) : List PdfCall :=
  [PdfCall.SetFont Font.fontName [] (Float64.ofInt 10),
   PdfCall.SetTextColor heading.R heading.G heading.B,
   PdfCall.SetX (Float64.ofInt (rateColumnOffset + 5)),
   PdfCall.CellWithOption (Float64.ofInt 45) (Float64.ofInt 14) label
     [Align.Right, Align.Middle],
   PdfCall.SetTextColor text.R text.G text.B,
   PdfCall.SetFontSize (Float64.ofInt 12),
   PdfCall.SetX (Float64.ofInt (amountColumnOffset - 15))] ++
  (if label = totalLabel then
    [PdfCall.SetFont Font.fontNameBold [] (Float64.ofDecimal 115 1)] else []) ++
  [PdfCall.Cell (moneyText env total),
   PdfCall.Br (Float64.ofInt 24)]

/-- `writeTotals` of `pdf.go`. -/
def writeTotals (env : Env) (subtotal : Float64) (tax : Float64) (discount : Float64) :
    List PdfCall :=
  [PdfCall.SetY (Float64.ofInt 650)] ++
  writeTotal env subtotalLabel subtotal ++
  (if Float64.gt tax (Float64.ofInt 0) then writeTotal env taxLabel tax else []) ++
  (if Float64.gt discount (Float64.ofInt 0) then writeTotal env discountLabel discount
   else []) ++
  writeTotal env totalLabel (Float64.sub (Float64.add subtotal tax) discount)

/-! ## Reading a list of calls -/

/-- The rows of the totals block: the calls `writeTotals` makes to `writeTotal`,
in order, each with its label and the amount passed. -/
def totalsRows (subtotal : Float64) (tax : Float64) (discount : Float64) :
    List (GoString × Float64) :=
  [(subtotalLabel, subtotal)] ++
  (if Float64.gt tax (Float64.ofInt 0) then [(taxLabel, tax)] else []) ++
  (if Float64.gt discount (Float64.ofInt 0) then [(discountLabel, discount)] else []) ++
  [(totalLabel, Float64.sub (Float64.add subtotal tax) discount)]

/-- A text cell as the canvas receives it: the cursor X it starts at when the
code has just fixed it with `SetX` (`none` when it starts wherever the previous
calls left the cursor), the width of its rectangle when it has one, its text and
its alignment flags. -/
structure DrawnCell where
  x : Option Float64
  width : Option Float64
  text : GoString
  align : List Align
deriving DecidableEq, Repr

/-- The text cells of a list of calls, in order.  `SetX` fixes the cursor X;
drawing a cell, a line break, an image or a line leaves it at a place `pdf.go`
does not determine; the other calls do not move it. -/
def drawnCells : Option Float64 → List PdfCall → List DrawnCell
  | _, [] => []
  | _, PdfCall.SetX x :: rest => drawnCells (some x) rest
  | cur, PdfCall.Cell t :: rest => ⟨cur, none, t, []⟩ :: drawnCells none rest
  | cur, PdfCall.CellWithOption w _ t a :: rest => ⟨cur, some w, t, a⟩ :: drawnCells none rest
  | _, PdfCall.Br _ :: rest => drawnCells none rest
  | _, PdfCall.Image _ _ _ _ _ :: rest => drawnCells none rest
  | _, PdfCall.Line _ _ _ _ :: rest => drawnCells none rest
  | cur, PdfCall.SetFont _ _ _ :: rest => drawnCells cur rest
  | cur, PdfCall.SetFontSize _ :: rest => drawnCells cur rest
  | cur, PdfCall.SetTextColor _ _ _ :: rest => drawnCells cur rest
  | cur, PdfCall.SetStrokeColor _ _ _ :: rest => drawnCells cur rest
  | cur, PdfCall.SetY _ :: rest => drawnCells cur rest

/-- The cursor Y after a list of calls, from the cursor Y before them: `SetY`
sets it, `Br(h)` adds `h` to it, and the other calls leave it alone. -/
def cursorYAfter : Float64 → List PdfCall → Float64
  | y, [] => y
  | _, PdfCall.SetY y :: rest => cursorYAfter y rest
  | y, PdfCall.Br h :: rest => cursorYAfter (Float64.add y h) rest
  | y, _ :: rest => cursorYAfter y rest

/-- The labels of the totals rows in a list of calls: the texts of the cells
drawn with a rectangle. -/
def rowLabels (calls : List PdfCall) : List GoString :=
  ((drawnCells none calls).filter (fun c => c.width.isSome)).map (fun c => c.text)

/-! ## Predicates and formats used in the statements -/

/-- Whether a `float64` is a whole number: finite, with no fractional part. -/
def Float64.isWhole : Float64 → Bool
  | .nan => false
  | .inf _ => false
  | .fin _ m e => Float64.num m e % Float64.den e = 0

/-- The number of characters after the first decimal point of a text (`0` when
it has no decimal point). -/
def fractionDigits (s : GoString) : Nat :=
  match stringsIndex s '.' with
  | some i => s.length - (i + 1)
  | none => 0

/-- Whether a text has a backslash directly followed by the letter `n`. -/
def hasBackslashN : GoString → Bool
  | a :: b :: rest => (a == '\\' && b == 'n') || hasBackslashN (b :: rest)
  | _ => false

/-- Thousands grouping, in the words of the specification: a comma follows
every character that has a positive multiple of three characters after it. -/
def groupThousands : GoString → GoString
  | [] => []
  | c :: cs =>
    if cs ≠ [] ∧ cs.length % 3 = 0 then c :: ',' :: groupThousands cs
    else c :: groupThousands cs

/-- The shortest decimal of the magnitude of `v`, split at the decimal point as
`Commaf` does. -/
def decimalParts (v : Float64) : List GoString :=
  stringsSplit (formatShortest
    (if Float64.lt v (Float64.ofInt 0) then Float64.sub (Float64.ofInt 0) v else v)) '.'

/-- The integer part of the shortest decimal of the magnitude of `v`. -/
def integerPart (v : Float64) : GoString := (decimalParts v).headD []

/-- The fraction digits of the shortest decimal of the magnitude of `v`, when
it has a decimal point. -/
def fractionPart (v : Float64) : Option GoString := (decimalParts v).get? 1

/-- The money format of `pdf.go`, part by part: the symbol, a minus sign for an
amount below zero, the thousands-grouped integer part and, when the shortest
decimal of the amount has a fraction, a decimal point and its first two digits
at most. -/
def moneyFormat (symbol : GoString) (v : Float64) : GoString :=
  symbol ++ (if Float64.lt v (Float64.ofInt 0) then ['-'] else []) ++
    groupThousands (integerPart v) ++
    (match fractionPart v with
     | none => []
     | some f => '.' :: f.take 2)

/-! ## Sample inputs -/

/-- A sample currency table.  The table of the package is declared outside
`pdf.go`; the scenarios of the specification fix only that `USD` has the symbol
`$`, and `EUR` and `GBP` stand for its other entries. -/
def sampleSymbols : List (GoString × GoString) :=
  [("USD".toList, "$".toList), ("EUR".toList, "€".toList), ("GBP".toList, "£".toList)]

/-- An out-of-range `int64` conversion on amd64: `0x8000000000000000`. -/
def int64OutOfRangeAmd64 (_ : Float64) : Int := -(2 ^ 63)

/-- A sample environment: currency `USD`, the only readable image is
`logo.png` (200 by 80 pixels), amd64 conversions. -/
def sampleEnv : Env where
  currencySymbols := sampleSymbols
  fileCurrency := "USD".toList
  decodeConfig := fun path => if path = "logo.png".toList then some (200, 80) else none
  int64OutOfRange := int64OutOfRangeAmd64

/-- The sample environment with the currency code `XXX`, which the table does
not list. -/
def unlistedCurrencyEnv : Env := { sampleEnv with fileCurrency := "XXX".toList }

/-! ## Facts shared by the theorems -/

set_option maxRecDepth 10000

/-- The calls of `writeTotals` are the `SetY` followed by one `writeTotal` per
row of `totalsRows`. -/
theorem writeTotals_eq_rows (env : Env) (subtotal tax discount : Float64) :
    writeTotals env subtotal tax discount =
      PdfCall.SetY (Float64.ofInt 650) ::
        (totalsRows subtotal tax discount).flatMap (fun row => writeTotal env row.1 row.2) := by
  unfold writeTotals totalsRows
  cases Float64.gt tax (Float64.ofInt 0) <;> cases Float64.gt discount (Float64.ofInt 0) <;>
    simp [List.flatMap]

/-- The two cells of one `writeTotal`. -/
theorem drawnCells_writeTotal (env : Env) (label : GoString) (total : Float64)
    (rest : List PdfCall) (cur : Option Float64) :
    drawnCells cur (writeTotal env label total ++ rest) =
      ⟨some (Float64.ofInt (rateColumnOffset + 5)), some (Float64.ofInt 45), label,
        [Align.Right, Align.Middle]⟩ ::
      ⟨some (Float64.ofInt (amountColumnOffset - 15)), none, moneyText env total, []⟩ ::
      drawnCells none rest := by
  unfold writeTotal
  by_cases h : label = totalLabel <;> simp [h, drawnCells]

/-- The labels drawn by `writeTotals` are the labels of `totalsRows`. -/
theorem rowLabels_writeTotals (env : Env) (subtotal tax discount : Float64) :
    rowLabels (writeTotals env subtotal tax discount) =
      (totalsRows subtotal tax discount).map Prod.fst := by
  unfold rowLabels writeTotals totalsRows
  cases Float64.gt tax (Float64.ofInt 0) <;> cases Float64.gt discount (Float64.ofInt 0) <;>
    simp [drawnCells, drawnCells_writeTotal]

/-- A power of two with exponent `log2Aux` does not exceed the number. -/
theorem log2Aux_pow_le (fuel n : Nat) (h : 1 ≤ n) : 2 ^ Float64.log2Aux fuel n ≤ n := by
  induction fuel generalizing n with
  | zero => simpa [Float64.log2Aux] using h
  | succ f ih =>
    unfold Float64.log2Aux
    split_ifs with h2
    · simpa using h
    · have := ih (n / 2) (by omega)
      rw [pow_succ]; omega

theorem roundHalfEven_le (p q : Nat) : Float64.roundHalfEven p q ≤ p / q + 1 := by
  unfold Float64.roundHalfEven
  simp only
  split_ifs <;> omega

theorem roundHalfEven_one (p : Nat) : Float64.roundHalfEven p 1 = p := by
  unfold Float64.roundHalfEven
  simp [Nat.mod_one]

theorem msbExp_one_le (p : Nat) : Float64.msbExp p 1 ≤ (Float64.log2 p : Int) := by
  unfold Float64.msbExp
  have h1 : Float64.log2 1 = 0 := by decide
  simp only [h1]
  split_ifs <;> omega

/-- A positive finite value equals no NaN, no infinity and no value with the
sign bit set. -/
theorem eq_fin_pos_neg (m : Nat) (e : Int) (x : Float64) (hm : 0 < m)
    (hx : x = .nan ∨ (∃ s, x = .inf s) ∨ ∃ m2 e2, x = .fin true m2 e2) :
    Float64.eq (.fin false m e) x = false := by
  rcases hx with rfl | ⟨s, rfl⟩ | ⟨m2, e2, rfl⟩
  · rfl
  · rfl
  · unfold Float64.eq
    simp only [decide_eq_false_iff_not, Float64.snum, Float64.num, Float64.den]
    have h1 : (0:Int) < ((m * 2 ^ e.toNat : Nat) : Int) * ((2 ^ (-e2).toNat : Nat) : Int) := by
      positivity
    have h2 : -((m2 * 2 ^ e2.toNat : Nat) : Int) * ((2 ^ (-e).toNat : Nat) : Int) ≤ 0 := by
      have : (0:Int) ≤ ((m2 * 2 ^ e2.toNat : Nat) : Int) * ((2 ^ (-e).toNat : Nat) : Int) := by
        positivity
      linarith
    simp only [Bool.false_eq_true, if_false, if_true]
    omega

/-- Rounding a natural number below `2^63` never gives `2^64`. -/
theorem round_lt_two_pow_64 (s : Bool) (p : Nat) (hp : p < 2 ^ 63) :
    Float64.eq (.fin false (2 ^ 52) 12) (Float64.round s p 1) = false := by
  unfold Float64.round
  by_cases hp0 : p = 0
  · simp only [hp0, if_true]; cases s <;> decide
  simp only [hp0, if_false]
  have hlog : Float64.log2 p ≤ 62 := by
    have h := log2Aux_pow_le p p (by omega)
    by_contra hc
    have : 2 ^ 63 ≤ 2 ^ Float64.log2Aux p p := Nat.pow_le_pow_right (by norm_num) (by
      unfold Float64.log2 at hc; omega)
    omega
  have hmsb := msbExp_one_le p
  generalize Float64.msbExp p 1 = msb at hmsb
  have ht : max (msb - 52) (-1074) ≤ 10 := by omega
  generalize max (msb - 52) (-1074) = t at ht
  have hk : Float64.roundHalfEven (p * 2 ^ (-t).toNat) (1 * 2 ^ t.toNat) * 2 ^ t.toNat
      < 2 ^ 64 * 2 ^ (-t).toNat := by
    by_cases htn : t < 0
    · have h0 : t.toNat = 0 := by omega
      simp only [h0, pow_zero, mul_one, roundHalfEven_one]
      have : 0 < 2 ^ (-t).toNat := by positivity
      nlinarith
    · have h0 : (-t).toNat = 0 := by omega
      have ha : t.toNat ≤ 10 := by omega
      simp only [h0, pow_zero, mul_one, one_mul]
      have h1 := roundHalfEven_le p (2 ^ t.toNat)
      have h2 : 2 ^ t.toNat ≤ 2 ^ 10 := Nat.pow_le_pow_right (by norm_num) ha
      have h3 : p / 2 ^ t.toNat * 2 ^ t.toNat ≤ p := Nat.div_mul_le_self p _
      nlinarith
  generalize Float64.roundHalfEven (p * 2 ^ (-t).toNat) (1 * 2 ^ t.toNat) = k at hk
  have hval : ∀ (m : Nat) (e : Int),
      m * 2 ^ e.toNat * 2 ^ (-t).toNat = k * 2 ^ t.toNat * 2 ^ (-e).toNat →
      Float64.eq (.fin false (2 ^ 52) 12) (.fin s m e) = false := by
    intro m e hme
    cases s
    · unfold Float64.eq
      simp only [decide_eq_false_iff_not, Float64.snum, Float64.num, Float64.den,
        Bool.false_eq_true, if_false]
      intro hc
      have hc2 : 2 ^ 52 * 2 ^ (12 : Int).toNat * 2 ^ (-e).toNat =
          m * 2 ^ e.toNat * 2 ^ (-(12 : Int)).toNat := by
        exact_mod_cast hc
      have h12 : (12 : Int).toNat = 12 := by decide
      have h12n : (-(12 : Int)).toNat = 0 := by decide
      rw [h12, h12n, pow_zero, mul_one] at hc2
      have h3 : 2 ^ 52 * 2 ^ 12 * 2 ^ (-e).toNat * 2 ^ (-t).toNat =
          k * 2 ^ t.toNat * 2 ^ (-e).toNat := by
        rw [hc2, hme]
      have h4 : 0 < 2 ^ (-e).toNat := by positivity
      have h5 : k * 2 ^ t.toNat * 2 ^ (-e).toNat < 2 ^ 64 * 2 ^ (-t).toNat * 2 ^ (-e).toNat :=
        Nat.mul_lt_mul_of_pos_right hk h4
      have h6 : 2 ^ 52 * 2 ^ 12 * 2 ^ (-e).toNat * 2 ^ (-t).toNat =
          2 ^ 64 * 2 ^ (-t).toNat * 2 ^ (-e).toNat := by
        ring
      omega
    · exact eq_fin_pos_neg _ _ _ (by positivity) (Or.inr (Or.inr ⟨m, e, rfl⟩))
  have h971 : ¬ (971 < t + 1) := by omega
  have h971t : ¬ (971 < t) := by omega
  simp only [h971, h971t, if_false]
  split_ifs with hk0 hk53
  · exact hval 0 0 (by simp [hk0])
  · refine hval (2 ^ 52) (t + 1) ?_
    rw [hk53]
    by_cases htn : 0 ≤ t
    · have e1 : (t + 1).toNat = t.toNat + 1 := by omega
      have e2 : (-t).toNat = 0 := by omega
      have e3 : (-(t + 1)).toNat = 0 := by omega
      rw [e1, e2, e3]; ring
    · have e1 : (t + 1).toNat = 0 := by omega
      have e2 : t.toNat = 0 := by omega
      have e3 : (-t).toNat = (-(t + 1)).toNat + 1 := by omega
      rw [e1, e2, e3]; ring
  · exact hval k t rfl

/-- No `int64` converts to the `float64` value `2^64`. -/
theorem eq_two_pow_64_ofInt (i : Int) (hlo : -(2 ^ 63 : Int) ≤ i) (hhi : i < 2 ^ 63) :
    Float64.eq (.fin false (2 ^ 52) 12) (Float64.ofInt i) = false := by
  unfold Float64.ofInt
  by_cases hneg : i < 0
  · simp only [hneg, decide_True]
    apply eq_fin_pos_neg _ _ _ (by positivity)
    unfold Float64.round
    simp only
    split_ifs
    all_goals first
      | exact Or.inr (Or.inl ⟨_, rfl⟩)
      | exact Or.inr (Or.inr ⟨_, _, rfl⟩)
  · exact round_lt_two_pow_64 _ _ (by omega)

/-! ## The totals block -/

/-- C1: for every subtotal, tax and discount, the labels of the rows drawn by
`writeTotals` contain "Tax" exactly when `tax > 0`, contain "Discount" exactly
when `discount > 0`, and contain "Subtotal" once and "Total" once; with tax 0
there is no "Tax" row. -/
theorem writeTotals_row_visibility (env : Env) (subtotal tax discount : Float64) :
    (taxLabel ∈ rowLabels (writeTotals env subtotal tax discount) ↔
      Float64.gt tax (Float64.ofInt 0) = true) ∧
    (discountLabel ∈ rowLabels (writeTotals env subtotal tax discount) ↔
      Float64.gt discount (Float64.ofInt 0) = true) ∧
    (rowLabels (writeTotals env subtotal tax discount)).count subtotalLabel = 1 ∧
    (rowLabels (writeTotals env subtotal tax discount)).count totalLabel = 1 ∧
    taxLabel ∉ rowLabels (writeTotals env subtotal (Float64.ofInt 0) discount) := by
  have key : ∀ t d : Float64,
      (taxLabel ∈ rowLabels (writeTotals env subtotal t d) ↔
        Float64.gt t (Float64.ofInt 0) = true) ∧
      (discountLabel ∈ rowLabels (writeTotals env subtotal t d) ↔
        Float64.gt d (Float64.ofInt 0) = true) ∧
      (rowLabels (writeTotals env subtotal t d)).count subtotalLabel = 1 ∧
      (rowLabels (writeTotals env subtotal t d)).count totalLabel = 1 := by
    intro t d
    rw [rowLabels_writeTotals]
    unfold totalsRows
    cases Float64.gt t (Float64.ofInt 0) <;> cases Float64.gt d (Float64.ofInt 0) <;>
      simp only [if_true, if_false, Bool.false_eq_true, List.map_append, List.map_cons,
        List.map_nil, List.append_nil, List.cons_append, List.nil_append] <;>
      decide
  obtain ⟨h1, h2, h3, h4⟩ := key tax discount
  refine ⟨h1, h2, h3, h4, fun h => ?_⟩
  have h0 := (key (Float64.ofInt 0) discount).1.1 h
  exact absurd h0 (by decide)

/-- C2: for every subtotal, tax and discount, `writeTotals` makes one
`writeTotal` call per row of `totalsRows`, the only row labelled "Total" is the
last one, and the amount passed to it is `subtotal + tax - discount` as computed
in `float64`, with no clamping; for 10, 0 and 25 that amount is -15, below zero,
and it is drawn as "$-15". -/
theorem writeTotals_total_value (env : Env) (subtotal tax discount : Float64) :
    writeTotals env subtotal tax discount =
      PdfCall.SetY (Float64.ofInt 650) ::
        (totalsRows subtotal tax discount).flatMap (fun row => writeTotal env row.1 row.2) ∧
    (totalsRows subtotal tax discount).getLast? =
      some (totalLabel, Float64.sub (Float64.add subtotal tax) discount) ∧
    (totalsRows subtotal tax discount).filter (fun row => row.1 = totalLabel) =
      [(totalLabel, Float64.sub (Float64.add subtotal tax) discount)] ∧
    Float64.sub (Float64.add (Float64.ofInt 10) (Float64.ofInt 0)) (Float64.ofInt 25) =
      Float64.ofInt (-15) ∧
    Float64.lt (Float64.ofInt (-15)) (Float64.ofInt 0) = true ∧
    moneyText sampleEnv (Float64.ofInt (-15)) = "$-15".toList := by
  refine ⟨writeTotals_eq_rows env subtotal tax discount, ?_, ?_, by decide, by decide, by decide⟩
  · unfold totalsRows
    cases Float64.gt tax (Float64.ofInt 0) <;> cases Float64.gt discount (Float64.ofInt 0) <;>
      simp
  · unfold totalsRows
    cases Float64.gt tax (Float64.ofInt 0) <;> cases Float64.gt discount (Float64.ofInt 0) <;>
      simp [List.filter, subtotalLabel, taxLabel, discountLabel, totalLabel]

/-- C10: for subtotal 500, tax -50 and discount 0, `writeTotals` draws only the
"Subtotal" and "Total" rows, in that order, and the amount of the "Total" row,
450, differs from the amount of the "Subtotal" row, 500: the hidden tax still
enters `subtotal + tax - discount`. -/
theorem writeTotals_rows_need_not_reconcile :
    rowLabels (writeTotals sampleEnv (Float64.ofInt 500) (Float64.ofInt (-50)) (Float64.ofInt 0)) =
      [subtotalLabel, totalLabel] ∧
    totalsRows (Float64.ofInt 500) (Float64.ofInt (-50)) (Float64.ofInt 0) =
      [(subtotalLabel, Float64.ofInt 500), (totalLabel, Float64.ofInt 450)] ∧
    Float64.eq (Float64.ofInt 450) (Float64.ofInt 500) = false ∧
    (drawnCells none
        (writeTotals sampleEnv (Float64.ofInt 500) (Float64.ofInt (-50)) (Float64.ofInt 0))).map
      (fun c => c.text) =
      ["Subtotal".toList, "$500".toList, "Total".toList, "$450".toList] := by
  refine ⟨by decide, by decide, by decide, by decide⟩

/-! ## Item rows -/

/-- C7: for every description, quantity and rate, `writeRow` draws four cells in
the order description (where the cursor stands), `formatFloat quantity` at
X = 360, the rate at X = 405 and, at X = 480, the money text of the `float64`
product of the quantity itself and the rate.  Quantity 2.5 at rate 40 draws
"2.5" and an amount of 100; quantity 2.25 is displayed as "2.2" while the amount
is 90, not the 88 the displayed quantity would give. -/
theorem writeRow_cells (env : Env) (item : GoString) (quantity rate : Float64) :
    drawnCells none (writeRow env item quantity rate) =
      [⟨none, none, item, []⟩,
       ⟨some (Float64.ofInt 360), none, formatFloat env quantity, []⟩,
       ⟨some (Float64.ofInt 405), none, moneyText env rate, []⟩,
       ⟨some (Float64.ofInt 480), none, moneyText env (Float64.mul quantity rate), []⟩] ∧
    formatFloat sampleEnv (Float64.ofDecimal 25 1) = "2.5".toList ∧
    Float64.mul (Float64.ofDecimal 25 1) (Float64.ofInt 40) = Float64.ofInt 100 ∧
    formatFloat sampleEnv (Float64.ofDecimal 225 2) = "2.2".toList ∧
    Float64.mul (Float64.ofDecimal 225 2) (Float64.ofInt 40) = Float64.ofInt 90 ∧
    Float64.mul (Float64.ofDecimal 22 1) (Float64.ofInt 40) = Float64.ofInt 88 := by
  refine ⟨?_, by decide, by decide, by decide, by decide, by decide⟩
  simp [writeRow, drawnCells, quantityColumnOffset, rateColumnOffset, amountColumnOffset]

/-! ## Label and value columns of the due date and the totals -/

/-- C8, as stated, fails: in `writeDueDate` and in `writeTotal` the label cell
starts at X = 410 and is 45 wide, so its right edge is at 455, not at the rate
column offset 405, and the value text starts at 465, not at the amount column
offset 480. -/
theorem label_cell_misses_column_offsets :
    drawnCells none (writeDueDate "2024-01-31".toList) =
      [⟨some (Float64.ofInt 410), some (Float64.ofInt 45), "Due".toList,
          [Align.Right, Align.Middle]⟩,
       ⟨some (Float64.ofInt 465), none, "2024-01-31".toList, []⟩] ∧
    drawnCells none (writeTotal sampleEnv totalLabel (Float64.ofInt 500)) =
      [⟨some (Float64.ofInt 410), some (Float64.ofInt 45), "Total".toList,
          [Align.Right, Align.Middle]⟩,
       ⟨some (Float64.ofInt 465), none, "$500".toList, []⟩] ∧
    Float64.add (Float64.ofInt 410) (Float64.ofInt 45) = Float64.ofInt 455 ∧
    Float64.eq (Float64.ofInt 455) (Float64.ofInt rateColumnOffset) = false ∧
    Float64.eq (Float64.ofInt 465) (Float64.ofInt amountColumnOffset) = false := by
  refine ⟨by decide, by decide, by decide, by decide, by decide⟩

/-- C8, amended: in both `writeDueDate` and `writeTotal` the label is drawn
right-aligned in a cell 45 wide that starts at the rate column offset plus 5
(X = 410) and so ends at X = 455, and the value text starts at the amount column
offset minus 15 (X = 465). -/
theorem label_and_value_columns (env : Env) (label due : GoString) (total : Float64) :
    drawnCells none (writeDueDate due) =
      [⟨some (Float64.ofInt (rateColumnOffset + 5)), some (Float64.ofInt 45), "Due".toList,
          [Align.Right, Align.Middle]⟩,
       ⟨some (Float64.ofInt (amountColumnOffset - 15)), none, due, []⟩] ∧
    drawnCells none (writeTotal env label total) =
      [⟨some (Float64.ofInt (rateColumnOffset + 5)), some (Float64.ofInt 45), label,
          [Align.Right, Align.Middle]⟩,
       ⟨some (Float64.ofInt (amountColumnOffset - 15)), none, moneyText env total, []⟩] ∧
    Float64.ofInt (rateColumnOffset + 5) = Float64.ofInt 410 ∧
    Float64.add (Float64.ofInt (rateColumnOffset + 5)) (Float64.ofInt 45) = Float64.ofInt 455 ∧
    Float64.ofInt (amountColumnOffset - 15) = Float64.ofInt 465 := by
  refine ⟨?_, ?_, by decide, by decide, by decide⟩
  · simp [writeDueDate, drawnCells]
  · have h := drawnCells_writeTotal env label total [] none
    simpa [drawnCells] using h

/-! ## The logo -/

/-- C6 fails on the code: for every non-empty logo path whose probe fails,
`writeLogo` still issues the image call, with the height `0 * 100 / 0 = NaN`,
and a line break of `NaN + 24 = NaN`, in front of the calls it issues for an
empty logo path; after these two calls the cursor Y is NaN, wherever it was
before. -/
theorem writeLogo_failed_probe (env : Env) (logo sender : GoString) (y : Float64)
    (hlogo : logo ≠ []) (hprobe : env.decodeConfig logo = none) :
    writeLogo env logo sender =
      PdfCall.Image logo Coord.GetX Coord.GetY (Float64.ofInt 100) Float64.nan ::
      PdfCall.Br Float64.nan :: writeLogo env [] sender ∧
    cursorYAfter y
      [PdfCall.Image logo Coord.GetX Coord.GetY (Float64.ofInt 100) Float64.nan,
       PdfCall.Br Float64.nan] = Float64.nan := by
  have h1 : Float64.div (Float64.mul (Float64.ofInt 0) (Float64.ofInt 100)) (Float64.ofInt 0) =
      Float64.nan := by decide
  have h2 : Float64.add Float64.nan (Float64.ofInt 24) = Float64.nan := by decide
  constructor
  · simp [writeLogo, getImageDimension, hlogo, hprobe, h1, h2]
  · cases y <;> rfl

/-- The failing probe of `writeLogo_failed_probe` at the path `missing.png`. -/
theorem writeLogo_failed_probe_witness :
    "missing.png".toList ≠ [] ∧ sampleEnv.decodeConfig "missing.png".toList = none ∧
    writeLogo sampleEnv "missing.png".toList "ACME".toList =
      PdfCall.Image "missing.png".toList Coord.GetX Coord.GetY (Float64.ofInt 100) Float64.nan ::
      PdfCall.Br Float64.nan :: writeLogo sampleEnv [] "ACME".toList ∧
    cursorYAfter (Float64.ofInt 40)
      [PdfCall.Image "missing.png".toList Coord.GetX Coord.GetY (Float64.ofInt 100) Float64.nan,
       PdfCall.Br Float64.nan] = Float64.nan :=
  ⟨by decide, by decide,
    writeLogo_failed_probe sampleEnv "missing.png".toList "ACME".toList (Float64.ofInt 40)
      (by decide) (by decide)⟩

/-! ## Quantities -/

/-- C4 fails on the code: `2^64` is a whole number, its conversion to `int64`
is out of range, and whatever `int64` the platform returns for it, converting
that back never gives `2^64`; so `formatFloat` takes the `%.1f` branch and
prints one digit after the decimal point. -/
theorem formatFloat_whole_beyond_int64 (env : Env)
    (hrange : ∀ x, -(2 ^ 63 : Int) ≤ env.int64OutOfRange x ∧ env.int64OutOfRange x < 2 ^ 63) :
    Float64.isWhole (Float64.ofInt (2 ^ 64)) = true ∧
    formatFloat env (Float64.ofInt (2 ^ 64)) = "18446744073709551616.0".toList ∧
    fractionDigits (formatFloat env (Float64.ofInt (2 ^ 64))) = 1 := by
  have hv : Float64.ofInt (2 ^ 64) = .fin false (2 ^ 52) 12 := by decide
  have hconv : toInt64 env (.fin false (2 ^ 52) 12) =
      env.int64OutOfRange (.fin false (2 ^ 52) 12) := by
    unfold toInt64
    have : ¬ (-(2 ^ 63 : Int) ≤ ((Float64.num (2 ^ 52) 12 / Float64.den 12 : Nat) : Int) ∧
        ((Float64.num (2 ^ 52) 12 / Float64.den 12 : Nat) : Int) < 2 ^ 63) := by decide
    simp only [Bool.false_eq_true, if_false, this]
  have hfmt : formatFloat env (Float64.ofInt (2 ^ 64)) = "18446744073709551616.0".toList := by
    unfold formatFloat
    rw [hv, hconv, eq_two_pow_64_ofInt _ (hrange _).1 (hrange _).2]
    decide
  refine ⟨by decide, hfmt, ?_⟩
  rw [hfmt]
  decide

/-- The whole number `2^64` under the amd64 conversion, for
`formatFloat_whole_beyond_int64`. -/
theorem formatFloat_whole_beyond_int64_witness :
    (∀ x, -(2 ^ 63 : Int) ≤ sampleEnv.int64OutOfRange x ∧ sampleEnv.int64OutOfRange x < 2 ^ 63) ∧
    Float64.isWhole (Float64.ofInt (2 ^ 64)) = true ∧
    formatFloat sampleEnv (Float64.ofInt (2 ^ 64)) = "18446744073709551616.0".toList ∧
    fractionDigits (formatFloat sampleEnv (Float64.ofInt (2 ^ 64))) = 1 :=
  ⟨fun _ => show -(2 ^ 63 : Int) ≤ -(2 ^ 63) ∧ -(2 ^ 63 : Int) < 2 ^ 63 from by decide,
    formatFloat_whole_beyond_int64 sampleEnv
      (fun _ => show -(2 ^ 63 : Int) ≤ -(2 ^ 63) ∧ -(2 ^ 63 : Int) < 2 ^ 63 from by decide)⟩

/-! ## Currency prefix -/

/-- C5, as stated, fails: with the currency code `XXX`, which the table does
not list, `writeRow` draws the rate 100 as "100" and the amount as "500", and
`writeTotal` draws 500 as "500"; none of these starts with `XXX`. -/
theorem unlisted_currency_not_prefixed :
    unlistedCurrencyEnv.currencySymbols.lookup unlistedCurrencyEnv.fileCurrency = none ∧
    (drawnCells none (writeRow unlistedCurrencyEnv "Consulting".toList (Float64.ofInt 5)
        (Float64.ofInt 100))).map (fun c => c.text) =
      ["Consulting".toList, "5".toList, "100".toList, "500".toList] ∧
    (drawnCells none (writeTotal unlistedCurrencyEnv totalLabel (Float64.ofInt 500))).map
        (fun c => c.text) = ["Total".toList, "500".toList] ∧
    "XXX".toList.isPrefixOf (moneyText unlistedCurrencyEnv (Float64.ofInt 100)) = false ∧
    "XXX".toList.isPrefixOf (moneyText unlistedCurrencyEnv (Float64.ofInt 500)) = false := by
  refine ⟨by decide, by decide, by decide, by decide, by decide⟩

/-- C5, amended: for every currency code that is absent from the currency
symbol table, the money text drawn by `writeRow` and `writeTotal` has an empty
prefix: it is `humanize.CommafWithDigits(amount, 2)` alone. -/
theorem unlisted_currency_empty_prefix (env : Env)
    (habsent : env.currencySymbols.lookup env.fileCurrency = none)
    (item label : GoString) (quantity rate total : Float64) :
    (drawnCells none (writeRow env item quantity rate)).map (fun c => c.text) =
      [item, formatFloat env quantity, humanizeCommafWithDigits rate 2,
        humanizeCommafWithDigits (Float64.mul quantity rate) 2] ∧
    (drawnCells none (writeTotal env label total)).map (fun c => c.text) =
      [label, humanizeCommafWithDigits total 2] := by
  have hm : ∀ a, moneyText env a = humanizeCommafWithDigits a 2 := by
    intro a
    simp [moneyText, mapIndex, habsent]
  constructor
  · simp [writeRow, drawnCells, hm]
  · have h := drawnCells_writeTotal env label total [] none
    simp only [List.append_nil] at h
    rw [h]
    simp [drawnCells, hm]

/-- The unlisted currency code `XXX`, for `unlisted_currency_empty_prefix`. -/
theorem unlisted_currency_empty_prefix_witness :
    unlistedCurrencyEnv.currencySymbols.lookup unlistedCurrencyEnv.fileCurrency = none ∧
    (drawnCells none (writeRow unlistedCurrencyEnv "Consulting".toList (Float64.ofInt 5)
        (Float64.ofInt 100))).map (fun c => c.text) =
      ["Consulting".toList, formatFloat unlistedCurrencyEnv (Float64.ofInt 5),
        humanizeCommafWithDigits (Float64.ofInt 100) 2,
        humanizeCommafWithDigits (Float64.mul (Float64.ofInt 5) (Float64.ofInt 100)) 2] ∧
    (drawnCells none (writeTotal unlistedCurrencyEnv totalLabel (Float64.ofInt 500))).map
        (fun c => c.text) = [totalLabel, humanizeCommafWithDigits (Float64.ofInt 500) 2] :=
  ⟨by decide, unlisted_currency_empty_prefix unlistedCurrencyEnv (by decide) "Consulting".toList
    totalLabel (Float64.ofInt 5) (Float64.ofInt 100) (Float64.ofInt 500)⟩

/-! ## Notes -/

theorem stringsSplit_ne_nil (s : GoString) (sep : Char) : stringsSplit s sep ≠ [] := by
  cases s with
  | nil => simp [stringsSplit]
  | cons c cs =>
    unfold stringsSplit
    split_ifs
    · simp
    · split <;> simp

theorem stringsJoin_cons_of_ne_nil (l : GoString) (ls : List GoString) (sep : Char)
    (h : ls ≠ []) : stringsJoin (l :: ls) sep = l ++ sep :: stringsJoin ls sep := by
  cases ls with
  | nil => exact absurd rfl h
  | cons l2 ls => rfl

theorem stringsJoin_stringsSplit (s : GoString) (sep : Char) :
    stringsJoin (stringsSplit s sep) sep = s := by
  induction s with
  | nil => rfl
  | cons c cs ih =>
    unfold stringsSplit
    split_ifs with h
    · rw [stringsJoin_cons_of_ne_nil _ _ _ (stringsSplit_ne_nil cs sep), ih, h]; rfl
    · split
      · next he => exact absurd he (stringsSplit_ne_nil cs sep)
      · next l ls he =>
        rw [he] at ih
        cases ls with
        | nil => simpa [stringsJoin] using ih
        | cons l2 ls =>
          simp only [stringsJoin] at ih ⊢
          rw [← ih]; rfl

theorem stringsSplit_parts (s : GoString) (sep : Char) :
    ∃ l0 ls, stringsSplit s sep = l0 :: ls ∧ l0 <+: s ∧ sep ∉ l0 ∧
      ∀ l ∈ ls, l <:+: s ∧ sep ∉ l := by
  induction s with
  | nil => exact ⟨[], [], rfl, List.prefix_refl _, by simp, by simp⟩
  | cons c cs ih =>
    obtain ⟨l0, ls, he, hp, hn, hr⟩ := ih
    unfold stringsSplit
    split_ifs with h
    · refine ⟨[], l0 :: ls, by rw [he], List.nil_prefix, by simp, ?_⟩
      intro l hl
      rcases List.mem_cons.1 hl with rfl | hl
      · exact ⟨(hp.isInfix).trans (List.infix_cons (List.infix_refl _)), hn⟩
      · exact ⟨(hr l hl).1.trans (List.infix_cons (List.infix_refl _)), (hr l hl).2⟩
    · rw [he]
      refine ⟨c :: l0, ls, rfl, ?_, ?_, ?_⟩
      · obtain ⟨t, ht⟩ := hp
        exact ⟨t, by simp [ht]⟩
      · simp only [List.mem_cons, not_or]
        exact ⟨fun hc => h hc.symm, hn⟩
      · intro l hl
        exact ⟨(hr l hl).1.trans (List.infix_cons (List.infix_refl _)), (hr l hl).2⟩

theorem stringsSplit_mem (s : GoString) (sep : Char) (l : GoString)
    (hl : l ∈ stringsSplit s sep) : l <:+: s ∧ sep ∉ l := by
  obtain ⟨l0, ls, he, hp, hn, hr⟩ := stringsSplit_parts s sep
  rw [he] at hl
  rcases List.mem_cons.1 hl with rfl | hl
  · exact ⟨hp.isInfix, hn⟩
  · exact hr l hl

theorem replaceAll_backslashN_match (rest : GoString) :
    stringsReplaceAll ('\\' :: 'n' :: rest) ['\\', 'n'] ['\n'] =
      '\n' :: stringsReplaceAll rest ['\\', 'n'] ['\n'] := by
  simp [stringsReplaceAll, replaceAllAux, List.isPrefixOf]

theorem replaceAll_backslashN_copy (c : Char) (rest : GoString)
    (h : ¬ (c = '\\' ∧ rest.head? = some 'n')) :
    stringsReplaceAll (c :: rest) ['\\', 'n'] ['\n'] =
      c :: stringsReplaceAll rest ['\\', 'n'] ['\n'] := by
  cases rest with
  | nil => simp [stringsReplaceAll, replaceAllAux, List.isPrefixOf]
  | cons d rest =>
    have h2 : ¬ (c = '\\' ∧ d = 'n') := by simpa using h
    have h3 : ¬ ('\\' = c ∧ 'n' = d) := fun hc => h2 ⟨hc.1.symm, hc.2.symm⟩
    have hp : List.isPrefixOf ['\\', 'n'] (c :: d :: rest) = false := by
      simp only [List.isPrefixOf, Bool.and_true, Bool.and_eq_false_imp, beq_iff_eq]
      intro hc
      simp only [beq_eq_false_iff_ne]
      exact fun hd => h3 ⟨hc, hd⟩
    rw [stringsReplaceAll, replaceAllAux, hp]
    simp [stringsReplaceAll]

theorem replaceAll_backslashN_spec (n : Nat) : ∀ s : GoString, s.length ≤ n →
    hasBackslashN (stringsReplaceAll s ['\\', 'n'] ['\n']) = false ∧
    ((stringsReplaceAll s ['\\', 'n'] ['\n']).head? = some 'n' → s.head? = some 'n') := by
  induction n with
  | zero =>
    intro s hs
    have : s = [] := List.length_eq_zero.1 (by omega)
    subst this
    simp [stringsReplaceAll, replaceAllAux, hasBackslashN]
  | succ n ih =>
    intro s hs
    cases s with
    | nil => simp [stringsReplaceAll, replaceAllAux, hasBackslashN]
    | cons c rest =>
      by_cases h : c = '\\' ∧ rest.head? = some 'n'
      · obtain ⟨hc, hr⟩ := h
        cases rest with
        | nil => simp at hr
        | cons d rest =>
          have hd : d = 'n' := by simpa using hr
          subst hc; subst hd
          rw [replaceAll_backslashN_match]
          have ih' := ih rest (by simp at hs; omega)
          constructor
          · cases hrr : stringsReplaceAll rest ['\\', 'n'] ['\n'] with
            | nil => simp [hasBackslashN]
            | cons b r' =>
              rw [hrr] at ih'
              simp only [hasBackslashN, ih'.1, Bool.or_false]
              have : ('\n' == '\\') = false := by decide
              simp [this]
          · intro hh; simp at hh
      · rw [replaceAll_backslashN_copy c rest h]
        have ih' := ih rest (by simp at hs; omega)
        constructor
        · cases hrr : stringsReplaceAll rest ['\\', 'n'] ['\n'] with
          | nil => simp [hasBackslashN]
          | cons b r' =>
            rw [hrr] at ih'
            simp only [hasBackslashN, ih'.1, Bool.or_false]
            by_contra hc
            have hc2 : c = '\\' ∧ b = 'n' := by simpa using hc
            exact h ⟨hc2.1, ih'.2 (by simp [hc2.2])⟩
        · intro hh
          simpa using hh

theorem not_infix_of_hasBackslashN (l : GoString) (h : hasBackslashN l = false) :
    ¬ ['\\', 'n'] <:+: l := by
  induction l with
  | nil => intro hc; simpa using List.eq_nil_of_infix_nil hc
  | cons a t ih =>
    intro hc
    rcases List.infix_cons_iff.1 hc with hp | hi
    · cases t with
      | nil =>
        obtain ⟨u, hu⟩ := hp
        simp at hu
      | cons b t =>
        obtain ⟨u, hu⟩ := hp
        simp only [List.cons_append, List.cons.injEq, List.nil_append] at hu
        obtain ⟨ha, hb, -⟩ := hu
        subst ha; subst hb
        simp [hasBackslashN] at h
    · cases t with
      | nil => simpa using List.eq_nil_of_infix_nil hi
      | cons b t =>
        simp only [hasBackslashN, Bool.or_eq_false_iff] at h
        exact ih h.2 hi

theorem writeNotesLoop_eq (ls : List GoString) :
    writeNotesLoop ls =
      ls.flatMap (fun line => [PdfCall.Cell line, PdfCall.Br (Float64.ofInt 14)]) := by
  induction ls with
  | nil => rfl
  | cons l ls ih => simp [writeNotesLoop, ih]

/-- C9: for every notes string, `writeNotes` draws, after the header, one cell
per element of `notesLines`, in order, each followed by a line break of 14; the
lines are the split at line breaks of the notes with every backslash-n replaced
by a line break; no line contains a line break or a backslash followed by `n`;
and joining the lines with line breaks gives back the normalized notes.  The
notes `Net 30\nThank you`, a line break, `Bye` are drawn as three lines. -/
theorem writeNotes_lines (notes header : GoString) :
    writeNotes notes header =
      [PdfCall.SetY (Float64.ofInt 650),
       PdfCall.SetFont Font.fontName [] (Float64.ofInt 10),
       PdfCall.SetTextColor 75 75 75,
       PdfCall.Cell header,
       PdfCall.Br (Float64.ofInt 18),
       PdfCall.SetFont Font.fontName [] (Float64.ofInt 10),
       PdfCall.SetTextColor 25 25 25] ++
      (notesLines notes).flatMap
        (fun line => [PdfCall.Cell line, PdfCall.Br (Float64.ofInt 14)]) ++
      [PdfCall.Br (Float64.ofInt 48)] ∧
    notesLines notes = stringsSplit (stringsReplaceAll notes ['\\', 'n'] ['\n']) '\n' ∧
    ¬ ['\\', 'n'] <:+: stringsReplaceAll notes ['\\', 'n'] ['\n'] ∧
    (∀ line ∈ notesLines notes, '\n' ∉ line ∧ ¬ ['\\', 'n'] <:+: line) ∧
    stringsJoin (notesLines notes) '\n' = stringsReplaceAll notes ['\\', 'n'] ['\n'] ∧
    notesLines "Net 30\\nThank you\nBye".toList =
      ["Net 30".toList, "Thank you".toList, "Bye".toList] := by
  have hno : ¬ ['\\', 'n'] <:+: stringsReplaceAll notes ['\\', 'n'] ['\n'] :=
    not_infix_of_hasBackslashN _ (replaceAll_backslashN_spec notes.length notes le_rfl).1
  refine ⟨?_, rfl, hno, ?_, ?_, by decide⟩
  · simp [writeNotes, writeNotesLoop_eq, heading, text]
  · intro line hl
    have h := stringsSplit_mem _ _ _ hl
    exact ⟨h.2, fun hc => hno (hc.trans h.1)⟩
  · exact stringsJoin_stringsSplit _ _

theorem commaGroups_threes (j : Nat) : ∀ l : GoString, l.length = 3 * j → l ≠ [] →
    commaGroups l ≠ [] ∧ (commaGroups l).dropLast = groupThousands l := by
  induction j with
  | zero =>
    intro l hl hne
    exact absurd (List.length_eq_zero.1 (by omega)) hne
  | succ j ih =>
    intro l hl hne
    match l, hl with
    | a :: b :: c :: rest, hl =>
      have hr : rest.length = 3 * j := by simp at hl; omega
      constructor
      · simp [commaGroups]
      · by_cases hrest : rest = []
        · subst hrest
          simp [commaGroups, groupThousands]
        · obtain ⟨h1, h2⟩ := ih rest hr hrest
          have hb : (b :: c :: rest).length % 3 ≠ 0 := by simp; omega
          have hc : (c :: rest).length % 3 ≠ 0 := by simp; omega
          have hd : rest.length % 3 = 0 := by omega
          simp only [commaGroups, groupThousands, hb, hc, hd, hrest, and_false, and_true,
            if_false, if_true, ne_eq, not_false_eq_true, List.cons_ne_nil]
          rw [List.dropLast_cons_of_ne_nil (by simp), List.dropLast_cons_of_ne_nil (by simp),
            List.dropLast_cons_of_ne_nil (by simp), List.dropLast_cons_of_ne_nil h1, h2]

theorem commaf_integer_part (p0 : GoString) (hne : p0 ≠ []) :
    ((if p0.length % 3 ≠ 0 then p0.take (p0.length % 3) ++ [','] else []) ++
        commaGroups (p0.drop (p0.length % 3))) ≠ [] ∧
    ((if p0.length % 3 ≠ 0 then p0.take (p0.length % 3) ++ [','] else []) ++
        commaGroups (p0.drop (p0.length % 3))).dropLast = groupThousands p0 := by
  have hmod : p0.length % 3 = 0 ∨ p0.length % 3 = 1 ∨ p0.length % 3 = 2 := by omega
  -- the tail after one or two leading characters
  have tail : ∀ l : GoString, l.length % 3 = 0 →
      ([','] ++ commaGroups l).dropLast = (if l = [] then [] else ',' :: groupThousands l) := by
    intro l hl
    by_cases hl0 : l = []
    · subst hl0; simp [commaGroups]
    · obtain ⟨h1, h2⟩ := commaGroups_threes (l.length / 3) l (by omega) hl0
      simp only [hl0, if_false, List.singleton_append]
      rw [List.dropLast_cons_of_ne_nil h1, h2]
  rcases hmod with h0 | h1 | h2
  · simp only [h0, ne_eq, not_true_eq_false, if_false, List.nil_append, List.drop_zero]
    exact commaGroups_threes (p0.length / 3) p0 (by omega) hne
  · match p0, h1 with
    | x :: l, h1 =>
      have hl : l.length % 3 = 0 := by simp at h1; omega
      have ht := tail l hl
      simp only [h1, ne_eq, one_ne_zero, not_false_eq_true, if_true, List.take_succ_cons,
        List.take_zero, List.drop_succ_cons, List.drop_zero]
      constructor
      · simp
      · have : ([x] ++ [','] ++ commaGroups l) = x :: ([','] ++ commaGroups l) := by simp
        rw [this, List.dropLast_cons_of_ne_nil (by simp), ht]
        by_cases hl0 : l = []
        · subst hl0; simp [groupThousands]
        · simp [groupThousands, hl0, hl]
  · match p0, h2 with
    | x :: y :: l, h2 =>
      have hl : l.length % 3 = 0 := by simp at h2; omega
      have hy : (y :: l).length % 3 ≠ 0 := by simp; omega
      have ht := tail l hl
      simp only [h2, ne_eq, OfNat.ofNat_ne_zero, not_false_eq_true, if_true, List.take_succ_cons,
        List.take_zero, List.drop_succ_cons, List.drop_zero]
      constructor
      · simp
      · have : ([x, y] ++ [','] ++ commaGroups l) = x :: y :: ([','] ++ commaGroups l) := by simp
        rw [this, List.dropLast_cons_of_ne_nil (by simp), List.dropLast_cons_of_ne_nil (by simp),
          ht]
        by_cases hl0 : l = []
        · subst hl0; simp [groupThousands]
        · have hy2 : ¬ ((l.length + 1) % 3 = 0) := by omega
          simp [groupThousands, hl0, hl, hy2]

theorem groupThousands_no_point (p : GoString) (h : '.' ∉ p) : '.' ∉ groupThousands p := by
  induction p with
  | nil => simp [groupThousands]
  | cons c cs ih =>
    have hc : '.' ≠ c := fun hc => h (hc ▸ List.mem_cons_self _ _)
    have hcs : '.' ∉ cs := fun hcs => h (List.mem_cons_of_mem _ hcs)
    have hcomma : ('.' : Char) ≠ ',' := by decide
    unfold groupThousands
    split_ifs <;> simp [hc, hcomma, ih hcs]

theorem stringsIndex_none (s : GoString) (sep : Char) (h : sep ∉ s) :
    stringsIndex s sep = none := by
  induction s with
  | nil => rfl
  | cons c cs ih =>
    have hc : c ≠ sep := fun hc => h (by simp [hc])
    have hcs : sep ∉ cs := fun hcs => h (List.mem_cons_of_mem _ hcs)
    simp [stringsIndex, hc, ih hcs]

theorem stringsIndex_append (s t : GoString) (sep : Char) (h : sep ∉ s) :
    stringsIndex (s ++ sep :: t) sep = some s.length := by
  induction s with
  | nil => simp [stringsIndex]
  | cons c cs ih =>
    have hc : c ≠ sep := fun hc => h (by simp [hc])
    have hcs : sep ∉ cs := fun hcs => h (List.mem_cons_of_mem _ hcs)
    simp [stringsIndex, hc, ih hcs]

theorem stripTrailingDigits_no_point (s : GoString) (digits : Int) (h : '.' ∉ s) :
    stripTrailingDigits s digits = s := by
  simp [stripTrailingDigits, stringsIndex_none s '.' h]

theorem stripTrailingDigits_two (buf f : GoString) (h : '.' ∉ buf) :
    stripTrailingDigits (buf ++ '.' :: f) 2 = buf ++ '.' :: f.take 2 := by
  unfold stripTrailingDigits
  rw [stringsIndex_append buf f '.' h]
  simp only [show ¬ ((2 : Int) ≤ 0) by decide, if_false]
  split_ifs with hlen
  · have hf : f.length ≤ 2 := by
      simp only [List.length_append, List.length_cons] at hlen
      omega
    rw [List.take_of_length_le hf]
  · have : buf.length + 1 + (2 : Int).toNat = buf.length + 3 := by
      have : (2 : Int).toNat = 2 := by decide
      omega
    rw [this]
    rw [List.take_append_eq_append_take]
    simp [List.take_of_length_le (show buf.length ≤ buf.length + 3 by omega)]

theorem digitChar_ne_point (d : Nat) (h : d < 10) : digitChar d ≠ '.' := by
  interval_cases d <;> decide

theorem natDigitsAux_head (fuel n : Nat) (acc : GoString)
    (hacc : fuel = 0 → ∃ c rest, acc = c :: rest ∧ c ≠ '.') :
    ∃ c rest, natDigitsAux fuel n acc = c :: rest ∧ c ≠ '.' := by
  induction fuel generalizing n acc with
  | zero => simpa [natDigitsAux] using hacc rfl
  | succ f ih =>
    unfold natDigitsAux
    split_ifs with h
    · exact ⟨_, _, rfl, digitChar_ne_point n h⟩
    · exact ih _ _ (fun _ => ⟨_, _, rfl, digitChar_ne_point _ (Nat.mod_lt _ (by norm_num))⟩)

theorem natDigits_head (n : Nat) : ∃ c rest, natDigits n = c :: rest ∧ c ≠ '.' :=
  natDigitsAux_head (n + 1) n [] (fun h => absurd h (by omega))

theorem fixedDigits_head (n prec : Nat) : ∃ c rest, fixedDigits n prec = c :: rest ∧ c ≠ '.' := by
  obtain ⟨c, rest, hd, hc⟩ := natDigits_head n
  unfold fixedDigits
  simp only
  -- the padded digits start with a character that is not the point
  have hpad : ∃ c2 rest2, List.replicate (prec + 1 - (natDigits n).length) '0' ++ natDigits n =
      c2 :: rest2 ∧ c2 ≠ '.' := by
    cases hk : prec + 1 - (natDigits n).length with
    | zero => exact ⟨c, rest, by simp [hd], hc⟩
    | succ k =>
      exact ⟨'0', List.replicate k '0' ++ natDigits n, by simp [List.replicate_succ], by decide⟩
  have hlen : prec + 1 ≤ (List.replicate (prec + 1 - (natDigits n).length) '0' ++
      natDigits n).length := by
    simp only [List.length_append, List.length_replicate]; omega
  obtain ⟨c2, rest2, hd2, hc2⟩ := hpad
  rw [hd2] at hlen ⊢
  split_ifs with hp
  · exact ⟨c2, rest2, rfl, hc2⟩
  · simp only [List.length_cons] at hlen ⊢
    have : rest2.length + 1 - prec = (rest2.length - prec) + 1 := by omega
    rw [this, List.take_succ_cons]
    exact ⟨c2, List.take (rest2.length - prec) rest2 ++
      '.' :: List.drop (rest2.length - prec + 1) (c2 :: rest2), by simp, hc2⟩

theorem decimalText_head (c : Nat) (j : Int) :
    ∃ a rest, decimalText c j = a :: rest ∧ a ≠ '.' := by
  unfold decimalText
  split_ifs
  · obtain ⟨a, rest, hd, ha⟩ := natDigits_head c
    exact ⟨a, rest ++ List.replicate j.toNat '0', by simp [hd], ha⟩
  · exact fixedDigits_head _ _

theorem formatShortest_head (x : Float64) :
    ∃ c rest, formatShortest x = c :: rest ∧ c ≠ '.' := by
  cases x with
  | nan => exact ⟨'N', _, rfl, by decide⟩
  | inf s => cases s <;> exact ⟨_, _, rfl, by decide⟩
  | fin s m e =>
    unfold formatShortest
    cases s
    · simp only [Bool.false_eq_true, if_false, List.nil_append]
      split_ifs with hm
      · exact ⟨'0', [], rfl, by decide⟩
      · exact decimalText_head _ _
    · exact ⟨'-', _, rfl, by decide⟩

theorem stringsSplit_cons_ne (c : Char) (rest : GoString) (sep : Char) (h : c ≠ sep) :
    ∃ l ls, stringsSplit (c :: rest) sep = (c :: l) :: ls := by
  unfold stringsSplit
  simp only [h, if_false]
  split
  · exact ⟨[], [], rfl⟩
  · exact ⟨_, _, rfl⟩

theorem humanizeCommafWithDigits_two (v : Float64) :
    humanizeCommafWithDigits v 2 = moneyFormat [] v := by
  obtain ⟨c, rest, hfs, hc⟩ := formatShortest_head
    (if Float64.lt v (Float64.ofInt 0) then Float64.sub (Float64.ofInt 0) v else v)
  obtain ⟨l, ls, hsplit⟩ := stringsSplit_cons_ne c rest '.' hc
  obtain ⟨l0, ls0, he, -, hn, -⟩ := stringsSplit_parts (c :: rest) '.'
  rw [hsplit] at he
  obtain ⟨h1, h2⟩ := List.cons.inj he
  subst h1; subst h2
  obtain ⟨hX, hXd⟩ := commaf_integer_part (c :: l) (by simp)
  have hbuf : '.' ∉ (if Float64.lt v (Float64.ofInt 0) then ['-'] else []) ++
      groupThousands (c :: l) := by
    have := groupThousands_no_point (c :: l) hn
    intro hmem
    rcases List.mem_append.1 hmem with h | h
    · split_ifs at h
      · simp at h
      · simp at h
    · exact this h
  unfold humanizeCommafWithDigits humanizeCommaf moneyFormat integerPart fractionPart decimalParts
  simp only [hfs, hsplit, List.headD_cons, List.nil_append]
  rw [List.append_assoc, List.dropLast_append_of_ne_nil _ hX, hXd]
  cases ls with
  | nil =>
    simp only [List.length_singleton, lt_irrefl, if_false, List.get?, List.append_nil]
    exact stripTrailingDigits_no_point _ _ hbuf
  | cons f ls =>
    have hlen : 1 < ((c :: l) :: f :: ls).length := by simp
    simp only [hlen, if_true, List.get?, List.getD_cons_succ, List.getD_cons_zero]
    exact stripTrailingDigits_two _ _ hbuf

theorem integerPart_no_point (v : Float64) : '.' ∉ integerPart v := by
  unfold integerPart decimalParts
  obtain ⟨l0, ls, he, -, hn, -⟩ := stringsSplit_parts (formatShortest
    (if Float64.lt v (Float64.ofInt 0) then Float64.sub (Float64.ofInt 0) v else v)) '.'
  rw [he]
  exact hn

theorem moneyFormat_fractionDigits (v : Float64) : fractionDigits (moneyFormat [] v) ≤ 2 := by
  have hbuf : '.' ∉ (if Float64.lt v (Float64.ofInt 0) then ['-'] else []) ++
      groupThousands (integerPart v) := by
    have := groupThousands_no_point _ (integerPart_no_point v)
    intro hmem
    rcases List.mem_append.1 hmem with h | h
    · split_ifs at h
      · simp at h
      · simp at h
    · exact this h
  unfold moneyFormat fractionDigits
  simp only [List.nil_append]
  cases fractionPart v with
  | none =>
    simp only [List.append_nil]
    rw [stringsIndex_none _ _ hbuf]
    exact Nat.zero_le _
  | some f =>
    simp only
    rw [stringsIndex_append _ _ _ hbuf]
    simp only [List.length_append, List.length_cons, List.length_take]
    omega

/-! ## Money text -/

/-- The examples in the documentation of go-humanize:
`Commaf(834142.32) -> 834,142.32` and
`CommafWithDigits(834142.32, 1) -> 834,142.3`. -/
theorem humanize_documented_examples :
    humanizeCommaf (Float64.ofDecimal 83414232 2) = "834,142.32".toList ∧
    humanizeCommafWithDigits (Float64.ofDecimal 83414232 2) 1 = "834,142.3".toList := by
  refine ⟨by decide, by decide⟩

/-- C3, as stated, fails: with currency USD, rate 100 and quantity 5, `writeRow`
draws the rate as "$100" and the amount as "$500", and `writeTotal` draws 500 as
"$500": no decimal point and no fractional digit, not "$100.00" and
"$500.00". -/
theorem money_text_without_decimals :
    (drawnCells none (writeRow sampleEnv "Consulting".toList (Float64.ofInt 5)
        (Float64.ofInt 100))).map (fun c => c.text) =
      ["Consulting".toList, "5".toList, "$100".toList, "$500".toList] ∧
    (drawnCells none (writeTotal sampleEnv subtotalLabel (Float64.ofInt 500))).map
        (fun c => c.text) = ["Subtotal".toList, "$500".toList] ∧
    fractionDigits "$100".toList = 0 ∧ fractionDigits "$500".toList = 0 ∧
    moneyText sampleEnv (Float64.ofInt 100) ≠ "$100.00".toList ∧
    moneyText sampleEnv (Float64.ofInt 500) ≠ "$500.00".toList := by
  refine ⟨by decide, by decide, by decide, by decide, by decide, by decide⟩

/-- C3, amended: for every amount and every currency code that has a symbol in
the currency table, the money text drawn by `writeRow` (rate and line amount)
and by `writeTotal` is `moneyFormat`: the symbol, a minus sign when the amount
is below zero, the thousands-grouped integer part of the shortest decimal of
the amount and, only when that decimal has a fraction, a decimal point and at
most its first two digits, so that the text after the symbol has at most two
characters after its decimal point.  In USD, rate 100 and quantity 5 give "$100"
and "$500", and 1234567.891 gives "$1,234,567.89". -/
theorem money_text_format (env : Env) (symbol : GoString)
    (hsym : env.currencySymbols.lookup env.fileCurrency = some symbol)
    (item label : GoString) (quantity rate total : Float64) :
    (drawnCells none (writeRow env item quantity rate)).map (fun c => c.text) =
      [item, formatFloat env quantity, moneyFormat symbol rate,
        moneyFormat symbol (Float64.mul quantity rate)] ∧
    (drawnCells none (writeTotal env label total)).map (fun c => c.text) =
      [label, moneyFormat symbol total] ∧
    fractionDigits (moneyFormat [] total) ≤ 2 ∧
    moneyFormat "$".toList (Float64.ofInt 100) = "$100".toList ∧
    moneyFormat "$".toList (Float64.mul (Float64.ofInt 5) (Float64.ofInt 100)) =
      "$500".toList ∧
    moneyFormat "$".toList (Float64.ofDecimal 1234567891 3) = "$1,234,567.89".toList := by
  have hm : ∀ a, moneyText env a = moneyFormat symbol a := by
    intro a
    simp [moneyText, mapIndex, hsym, humanizeCommafWithDigits_two, moneyFormat]
  refine ⟨?_, ?_, ?_, by decide, by decide, by decide⟩
  · simp [writeRow, drawnCells, hm]
  · have h := drawnCells_writeTotal env label total [] none
    simp only [List.append_nil] at h
    rw [h]
    simp [drawnCells, hm]
  · exact moneyFormat_fractionDigits total

/-- Rate 100 and quantity 5 in USD, and the total 1234567.891, for
`money_text_format`. -/
theorem money_text_format_witness :
    sampleEnv.currencySymbols.lookup sampleEnv.fileCurrency = some "$".toList ∧
    (drawnCells none (writeRow sampleEnv "Consulting".toList (Float64.ofInt 5)
        (Float64.ofInt 100))).map (fun c => c.text) =
      ["Consulting".toList, formatFloat sampleEnv (Float64.ofInt 5),
        moneyFormat "$".toList (Float64.ofInt 100),
        moneyFormat "$".toList (Float64.mul (Float64.ofInt 5) (Float64.ofInt 100))] ∧
    (drawnCells none (writeTotal sampleEnv totalLabel (Float64.ofDecimal 1234567891 3))).map
        (fun c => c.text) = [totalLabel, moneyFormat "$".toList (Float64.ofDecimal 1234567891 3)] ∧
    fractionDigits (moneyFormat [] (Float64.ofDecimal 1234567891 3)) ≤ 2 ∧
    moneyFormat "$".toList (Float64.ofInt 100) = "$100".toList ∧
    moneyFormat "$".toList (Float64.mul (Float64.ofInt 5) (Float64.ofInt 100)) =
      "$500".toList ∧
    moneyFormat "$".toList (Float64.ofDecimal 1234567891 3) = "$1,234,567.89".toList :=
  ⟨by decide, money_text_format sampleEnv "$".toList (by decide) "Consulting".toList
    totalLabel (Float64.ofInt 5) (Float64.ofInt 100) (Float64.ofDecimal 1234567891 3)⟩

/-! ## Quantities within the `int64` range -/

theorem log2Aux_lt_pow (fuel n : Nat) (hf : n ≤ fuel) (h : 1 ≤ n) :
    n < 2 ^ (Float64.log2Aux fuel n + 1) := by
  induction fuel generalizing n with
  | zero => omega
  | succ f ih =>
    unfold Float64.log2Aux
    split_ifs with h2
    · simp; omega
    · have := ih (n / 2) (by omega) (by omega)
      rw [pow_succ]; omega

theorem log2_spec (n : Nat) (h : 1 ≤ n) :
    2 ^ Float64.log2 n ≤ n ∧ n < 2 ^ (Float64.log2 n + 1) :=
  ⟨log2Aux_pow_le n n h, log2Aux_lt_pow n n le_rfl h⟩

theorem msbExp_one (p : Nat) (h : 1 ≤ p) : Float64.msbExp p 1 = (Float64.log2 p : Int) := by
  unfold Float64.msbExp
  have h1 : Float64.log2 1 = 0 := by decide
  have h2 := (log2_spec p h).1
  simp only [h1, Nat.cast_zero, sub_zero, Int.toNat_ofNat, one_mul]
  have h3 : (-(Float64.log2 p : Int)).toNat = 0 := by omega
  simp [h3, h2]



theorem roundHalfEven_of_dvd (p q : Nat) (hq : 0 < q) (h : q ∣ p) :
    Float64.roundHalfEven p q = p / q := by
  unfold Float64.roundHalfEven
  have hr : p % q = 0 := Nat.mod_eq_zero_of_dvd h
  simp only [hr, mul_zero]
  have h1 : ¬ (q < 0) := by omega
  have h2 : ¬ (0 = q ∧ p / q % 2 = 1) := by omega
  simp [h1, h2]

theorem round_exact (s : Bool) (v : Nat) (hv : 1 ≤ v) (hlt : v < 2 ^ 63)
    (hrep : ∀ t : Nat, 2 ^ (t + 52) ≤ v → 2 ^ t ∣ v) :
    ∃ k t, Float64.round s v 1 = .fin s k t ∧ k * 2 ^ t.toNat = v * 2 ^ (-t).toNat := by
  obtain ⟨hlo, hhi⟩ := log2_spec v hv
  have hL : Float64.log2 v ≤ 62 := by
    by_contra hc
    have : 2 ^ 63 ≤ 2 ^ Float64.log2 v := Nat.pow_le_pow_right (by norm_num) (by omega)
    omega
  unfold Float64.round
  have hv0 : v ≠ 0 := by omega
  simp only [hv0, if_false, msbExp_one v hv]
  generalize Float64.log2 v = L at hlo hhi hL
  have ht : max ((L : Int) - 52) (-1074) = (L : Int) - 52 := by omega
  rw [ht]
  by_cases hcase : L ≤ 52
  · have e1 : (-((L : Int) - 52)).toNat = 52 - L := by omega
    have e2 : ((L : Int) - 52).toNat = 0 := by omega
    simp only [e1, e2, pow_zero, mul_one, roundHalfEven_one]
    have hk : v * 2 ^ (52 - L) < 2 ^ 53 := by
      have : 2 ^ (L + 1) * 2 ^ (52 - L) = 2 ^ 53 := by
        rw [← pow_add]; congr 1; omega
      have hpos : 0 < 2 ^ (52 - L) := by positivity
      calc v * 2 ^ (52 - L) < 2 ^ (L + 1) * 2 ^ (52 - L) := Nat.mul_lt_mul_of_pos_right hhi hpos
        _ = 2 ^ 53 := this
    have hk0 : v * 2 ^ (52 - L) ≠ 0 := by positivity
    have hk53 : v * 2 ^ (52 - L) ≠ 2 ^ 53 := by omega
    have h971 : ¬ (971 < (L : Int) - 52) := by omega
    simp only [hk0, hk53, h971, if_false]
    refine ⟨_, _, rfl, ?_⟩
    rw [e1, e2]; ring
  · have e1 : (-((L : Int) - 52)).toNat = 0 := by omega
    have e2 : ((L : Int) - 52).toNat = L - 52 := by omega
    simp only [e1, e2, pow_zero, mul_one, one_mul]
    have hdvd : 2 ^ (L - 52) ∣ v := hrep (L - 52) (by
      have : L - 52 + 52 = L := by omega
      rw [this]; exact hlo)
    have hpos : 0 < 2 ^ (L - 52) := by positivity
    rw [roundHalfEven_of_dvd v _ hpos hdvd]
    obtain ⟨c, hc⟩ := hdvd
    have hdiv : v / 2 ^ (L - 52) = c := by
      rw [hc]; exact Nat.mul_div_cancel_left c hpos
    rw [hdiv]
    have hc0 : c ≠ 0 := by
      rintro rfl; simp at hc; omega
    have hc53 : c < 2 ^ 53 := by
      have h1 : 2 ^ (L - 52) * c < 2 ^ (L - 52) * 2 ^ 53 := by
        have : 2 ^ (L - 52) * 2 ^ 53 = 2 ^ (L + 1) := by
          rw [← pow_add]; congr 1; omega
        rw [this, ← hc]; exact hhi
      exact Nat.lt_of_mul_lt_mul_left h1
    have hc53' : c ≠ 2 ^ 53 := by omega
    have h971 : ¬ (971 < (L : Int) - 52) := by omega
    simp only [hc0, hc53', h971, if_false]
    refine ⟨_, _, rfl, ?_⟩
    rw [e1, e2, hc]; ring



theorem msbExp_one_ge (p : Nat) : -1 ≤ Float64.msbExp p 1 := by
  unfold Float64.msbExp
  have h1 : Float64.log2 1 = 0 := by decide
  simp only [h1]
  split_ifs <;> omega

theorem round_int_valued (s : Bool) (p : Nat) (s2 : Bool) (k : Nat) (t : Int)
    (h : Float64.round s p 1 = .fin s2 k t) : Float64.den t ∣ Float64.num k t := by
  unfold Float64.round at h
  by_cases hp : p = 0
  · simp only [hp, if_true, Float64.fin.injEq] at h
    obtain ⟨-, rfl, rfl⟩ := h
    simp [Float64.den, Float64.num]
  simp only [hp, if_false] at h
  have hge := msbExp_one_ge p
  generalize Float64.msbExp p 1 = msb at h hge
  have ht0 : -53 ≤ max (msb - 52) (-1074) := by omega
  generalize max (msb - 52) (-1074) = t0 at h ht0
  split_ifs at h with h1 h2 h3 h4
  · simp only [Float64.fin.injEq] at h
    obtain ⟨-, rfl, rfl⟩ := h
    simp [Float64.den, Float64.num]
  · simp only [Float64.fin.injEq] at h
    obtain ⟨-, rfl, rfl⟩ := h
    unfold Float64.den Float64.num
    have : (-(t0 + 1)).toNat ≤ 52 := by omega
    exact Dvd.dvd.mul_right (Nat.pow_dvd_pow 2 this) _
  · simp only [Float64.fin.injEq] at h
    obtain ⟨-, rfl, rfl⟩ := h
    unfold Float64.den Float64.num
    by_cases htn : t0 < 0
    · have e2 : t0.toNat = 0 := by omega
      simp only [e2, pow_zero, mul_one, roundHalfEven_one]
      exact Dvd.intro_left _ rfl
    · have e1 : (-t0).toNat = 0 := by omega
      simp [e1]

theorem eq_false_of_not_whole (s : Bool) (m : Nat) (e : Int) (r : Float64)
    (hn : Float64.num m e % Float64.den e ≠ 0)
    (hr : ∀ s2 k t, r = .fin s2 k t → Float64.den t ∣ Float64.num k t) :
    Float64.eq (.fin s m e) r = false := by
  cases r with
  | nan => rfl
  | inf s2 => rfl
  | fin s2 k t =>
    obtain ⟨c, hc⟩ := hr s2 k t rfl
    unfold Float64.eq
    simp only [decide_eq_false_iff_not]
    intro heq
    have hnat : Float64.num m e * Float64.den t = Float64.num k t * Float64.den e := by
      have := congrArg Int.natAbs heq
      unfold Float64.snum at this
      cases s <;> cases s2 <;>
        simpa [Int.natAbs_mul, Int.natAbs_neg, Int.natAbs_ofNat] using this
    have hdt : 0 < Float64.den t := by unfold Float64.den; positivity
    rw [hc] at hnat
    have h2 : Float64.num m e = c * Float64.den e := by
      have : Float64.den t * Float64.num m e = Float64.den t * (c * Float64.den e) := by
        rw [mul_comm, hnat]; ring
      exact Nat.eq_of_mul_eq_mul_left hdt this
    exact hn (by rw [h2]; exact Nat.mul_mod_left c _)



theorem digitChar_isDigit (d : Nat) (h : d < 10) : (digitChar d).isDigit = true := by
  interval_cases d <;> decide

theorem natDigitsAux_isDigit (fuel n : Nat) (acc : GoString)
    (hacc : ∀ c ∈ acc, c.isDigit = true) :
    ∀ c ∈ natDigitsAux fuel n acc, c.isDigit = true := by
  induction fuel generalizing n acc with
  | zero => simpa [natDigitsAux] using hacc
  | succ f ih =>
    unfold natDigitsAux
    split_ifs with h
    · intro c hc
      rcases List.mem_cons.1 hc with rfl | hc
      · exact digitChar_isDigit n h
      · exact hacc c hc
    · apply ih
      intro c hc
      rcases List.mem_cons.1 hc with rfl | hc
      · exact digitChar_isDigit _ (Nat.mod_lt _ (by norm_num))
      · exact hacc c hc

theorem natDigits_ne_nil (n : Nat) : natDigits n ≠ [] := by
  obtain ⟨c, rest, h, -⟩ := natDigits_head n
  rw [h]; simp

/-- The digits `fixedDigits` puts around the point. -/
theorem fixedDigits_shape (n prec : Nat) :
    ∃ ip fp : GoString, ip ≠ [] ∧ fp.length = prec ∧
      (∀ c ∈ ip ++ fp, c.isDigit = true) ∧
      fixedDigits n prec = if prec = 0 then ip else ip ++ '.' :: fp := by
  unfold fixedDigits
  simp only
  have hd := natDigitsAux_isDigit (n + 1) n [] (by simp)
  have hall : ∀ c ∈ List.replicate (prec + 1 - (natDigits n).length) '0' ++ natDigits n,
      c.isDigit = true := by
    intro c hc
    rcases List.mem_append.1 hc with h | h
    · rw [List.eq_of_mem_replicate h]; decide
    · exact hd c h
  have hlen : prec + 1 ≤ (List.replicate (prec + 1 - (natDigits n).length) '0' ++
      natDigits n).length := by
    simp only [List.length_append, List.length_replicate]; omega
  generalize List.replicate (prec + 1 - (natDigits n).length) '0' ++ natDigits n = ds
    at hall hlen
  refine ⟨ds.take (ds.length - prec), ds.drop (ds.length - prec), ?_, ?_, ?_, ?_⟩
  · intro h
    have := congrArg List.length h
    simp only [List.length_take, List.length_nil] at this
    omega
  · simp only [List.length_drop]; omega
  · rw [List.take_append_drop]; exact hall
  · split_ifs with hp
    · subst hp; simp
    · rfl

theorem isDigit_ne (c x : Char) (hc : c.isDigit = true) (hx : x.isDigit = false) : c ≠ x := by
  rintro rfl
  rw [hc] at hx
  exact Bool.noConfusion hx

theorem fractionDigits_formatFixed (prec : Nat) (s : Bool) (m : Nat) (e : Int) :
    fractionDigits (formatFixed prec (.fin s m e)) = prec ∧
    ((formatFixed prec (.fin s m e)).head? = some '-' ↔ s = true) := by
  obtain ⟨ip, fp, hip, hfp, hdig, hfix⟩ := fixedDigits_shape
    (Float64.roundHalfEven (Float64.num m e * 10 ^ prec) (Float64.den e)) prec
  have hform : formatFixed prec (.fin s m e) = (if s = true then ['-'] else []) ++
      (if prec = 0 then ip else ip ++ '.' :: fp) := by
    rw [← hfix]; rfl
  rw [hform]
  have hpoint : ('.' : Char).isDigit = false := by decide
  have hminus : ('-' : Char).isDigit = false := by decide
  have hno : '.' ∉ (if s = true then ['-'] else []) ++ ip := by
    intro hmem
    rcases List.mem_append.1 hmem with h | h
    · cases s <;> simp at h
    · exact isDigit_ne _ _ (hdig _ (List.mem_append_left _ h)) hpoint rfl
  constructor
  · generalize (if s = true then ['-'] else []) = sg at hno
    unfold fractionDigits
    by_cases hp : prec = 0
    · simp only [hp, if_true]
      rw [stringsIndex_none _ _ hno]
    · simp only [hp, if_false]
      rw [← List.append_assoc, stringsIndex_append _ _ _ hno]
      simp only [List.length_append, List.length_cons]
      omega
  · cases s
    · simp only [Bool.false_eq_true, if_false, List.nil_append, iff_false]
      obtain ⟨c, rest, rfl⟩ := List.exists_cons_of_ne_nil hip
      have hc : c ≠ '-' := isDigit_ne _ _ (hdig c (by simp)) hminus
      split_ifs <;> simpa using hc
    · simp



theorem toInt64_in_range (env : Env) (s : Bool) (m : Nat) (e : Int)
    (hrange : Float64.num m e / Float64.den e < 2 ^ 63) :
    toInt64 env (.fin s m e) =
      if s then -((Float64.num m e / Float64.den e : Nat) : Int)
      else ((Float64.num m e / Float64.den e : Nat) : Int) := by
  unfold toInt64
  simp only
  generalize Float64.num m e / Float64.den e = v at hrange
  have h : -(2 ^ 63 : Int) ≤ (if s = true then -(v : Int) else (v : Int)) ∧
      (if s = true then -(v : Int) else (v : Int)) < 2 ^ 63 := by
    have h1 : (v : Int) < 2 ^ 63 := by exact_mod_cast hrange
    have h2 : (0 : Int) ≤ (v : Int) := Int.ofNat_nonneg v
    cases s
    · simp only [Bool.false_eq_true, if_false]; omega
    · simp only [if_true]; omega
  rw [if_pos h]

theorem eq_ofInt_of_whole (env : Env) (s : Bool) (m : Nat) (e : Int) (hm : m < 2 ^ 53)
    (hrange : Float64.num m e / Float64.den e < 2 ^ 63)
    (hw : Float64.num m e % Float64.den e = 0) :
    Float64.eq (.fin s m e) (Float64.ofInt (toInt64 env (.fin s m e))) = true := by
  rw [toInt64_in_range env s m e hrange]
  have hden : 0 < Float64.den e := by unfold Float64.den; positivity
  have hnum : Float64.num m e = Float64.num m e / Float64.den e * Float64.den e :=
    (Nat.div_mul_cancel (Nat.dvd_of_mod_eq_zero hw)).symm
  generalize hv : Float64.num m e / Float64.den e = v at hnum hrange
  unfold Float64.ofInt
  have habs : (if s = true then -(v : Int) else (v : Int)).natAbs = v := by
    cases s <;> simp
  rw [habs]
  by_cases hv0 : v = 0
  · subst hv0
    have h0 : Float64.num m e = 0 := by simpa using hnum
    unfold Float64.round
    simp only [if_true]
    unfold Float64.eq Float64.snum
    have h00 : Float64.num 0 0 = 0 := by decide
    simp only [h0, h00, Nat.cast_zero, neg_zero, ite_self, zero_mul, decide_True]
  · have hsign : decide ((if s = true then -(v : Int) else (v : Int)) < 0) = s := by
      have hvpos : (0 : Int) < (v : Int) := by exact_mod_cast Nat.pos_of_ne_zero hv0
      cases s
      · simp only [Bool.false_eq_true, if_false, decide_eq_false_iff_not]; omega
      · simp only [if_true, decide_eq_true_eq]; omega
    rw [hsign]
    have hrep : ∀ t : Nat, 2 ^ (t + 52) ≤ v → 2 ^ t ∣ v := by
      intro t ht
      by_cases he : 0 ≤ e
      · have hd1 : Float64.den e = 1 := by
          unfold Float64.den
          have : (-e).toNat = 0 := by omega
          rw [this, pow_zero]
        have hvm : v = m * 2 ^ e.toNat := by
          rw [hd1, mul_one] at hnum
          rw [← hnum]; rfl
        have hlt : v < 2 ^ (53 + e.toNat) := by
          rw [hvm, pow_add]
          exact Nat.mul_lt_mul_of_pos_right hm (by positivity)
        have hte : t ≤ e.toNat := by
          by_contra hc
          have : 2 ^ (53 + e.toNat) ≤ 2 ^ (t + 52) :=
            Nat.pow_le_pow_right (by norm_num) (by omega)
          omega
        rw [hvm]
        exact Dvd.dvd.mul_left (Nat.pow_dvd_pow 2 hte) _
      · have hvle : v ≤ m := by
          have h1 : Float64.num m e = m := by
            unfold Float64.num
            have : e.toNat = 0 := by omega
            rw [this, pow_zero, mul_one]
          rw [h1] at hnum
          calc v = v * 1 := (mul_one v).symm
            _ ≤ v * Float64.den e := Nat.mul_le_mul_left v hden
            _ = m := hnum.symm
        have ht0 : t = 0 := by
          by_contra hc
          have : 2 ^ 53 ≤ 2 ^ (t + 52) := Nat.pow_le_pow_right (by norm_num) (by omega)
          omega
        subst ht0
        simp
    obtain ⟨k, t, hround, hval⟩ := round_exact s v (by omega) hrange hrep
    rw [hround]
    unfold Float64.eq
    simp only [decide_eq_true_eq]
    have hnat : Float64.num m e * Float64.den t = Float64.num k t * Float64.den e := by
      unfold Float64.num Float64.den at hnum ⊢
      rw [hnum, hval]; ring
    unfold Float64.snum
    cases s
    · simp only [Bool.false_eq_true, if_false]
      exact_mod_cast hnat
    · simp only [if_true]
      have : ((Float64.num m e * Float64.den t : Nat) : Int) =
          ((Float64.num k t * Float64.den e : Nat) : Int) := by rw [hnat]
      push_cast at this
      linarith



/-- Within the `int64` range `formatFloat` prints a whole number with no digit
after the decimal point and any other number with exactly one, and the text
starts with a minus sign exactly when the sign bit is set. -/
theorem formatFloat_in_int64_range (env : Env) (s : Bool) (m : Nat) (e : Int)
    (hm : m < 2 ^ 53) (hrange : Float64.num m e / Float64.den e < 2 ^ 63) :
    (Float64.isWhole (.fin s m e) = true →
      fractionDigits (formatFloat env (.fin s m e)) = 0) ∧
    (Float64.isWhole (.fin s m e) = false →
      fractionDigits (formatFloat env (.fin s m e)) = 1) ∧
    ((formatFloat env (.fin s m e)).head? = some '-' ↔ s = true) := by
  by_cases hw : Float64.num m e % Float64.den e = 0
  · have heq := eq_ofInt_of_whole env s m e hm hrange hw
    have hf : formatFloat env (.fin s m e) = formatFixed 0 (.fin s m e) := by
      unfold formatFloat sprintf0f
      rw [heq]; rfl
    rw [hf]
    refine ⟨fun _ => (fractionDigits_formatFixed 0 s m e).1, fun h => ?_,
      (fractionDigits_formatFixed 0 s m e).2⟩
    simp [Float64.isWhole, hw] at h
  · have heq : Float64.eq (.fin s m e) (Float64.ofInt (toInt64 env (.fin s m e))) = false :=
      eq_false_of_not_whole s m e _ hw (fun s2 k t h => round_int_valued _ _ s2 k t h)
    have hf : formatFloat env (.fin s m e) = formatFixed 1 (.fin s m e) := by
      unfold formatFloat sprintf1f
      rw [heq]; rfl
    rw [hf]
    refine ⟨fun h => ?_, fun _ => (fractionDigits_formatFixed 1 s m e).1,
      (fractionDigits_formatFixed 1 s m e).2⟩
    simp [Float64.isWhole, hw] at h

/-- Quantities within the range: -7, -7.5 and 5. -/
theorem formatFloat_in_int64_range_examples :
    formatFloat sampleEnv (Float64.ofInt (-7)) = "-7".toList ∧
    formatFloat sampleEnv (Float64.ofDecimal (-75) 1) = "-7.5".toList ∧
    formatFloat sampleEnv (Float64.ofInt 5) = "5".toList := by
  refine ⟨by decide, by decide, by decide⟩

end Invoice
